import Mathlib

/-!
Verification development for the `subtitle_renamer` video organizer
(`src/subtitle_renamer/organizer.py`).

The Python module is shallowly embedded: strings are Lean `String`s /
`List Char`, the regular expressions of the source are compiled by hand into
explicit scanning functions with the exact backtracking semantics of the
patterns involved, and the filesystem walked by `VideoOrganizer.organize` is
an explicit tree value threaded through the walker.  Python character classes
are modelled at their ASCII core (`\d` as `Char.isDigit`, `\s` as the usual
ASCII whitespace, case folding via `Char.toLower`), which is faithful for all
file names considered here.
-/

deriving instance DecidableEq for Except

namespace SubtitleRenamer

/-! ### Basic character and string helpers (Python primitives) -/

/-- Python `\s` (ASCII part): space, tab, newline, carriage return,
vertical tab, form feed. -/
def isSpaceChar (c : Char) : Bool :=
  c = ' ' || c = '\t' || c = '\n' || c = '\r' || c = '\x0b' || c = '\x0c'

/-- Python `str.strip()` (ASCII whitespace). -/
def pyStrip (s : String) : String :=
  ⟨((s.data.dropWhile isSpaceChar).reverse.dropWhile isSpaceChar).reverse⟩

/-- Python `str.upper()` (ASCII letters). -/
def pyUpper (s : String) : String := ⟨s.data.map Char.toUpper⟩

/-- Python `str.lower()` (ASCII letters). -/
def pyLower (s : String) : String := ⟨s.data.map Char.toLower⟩

/-- Numeric value of a digit string, as Python `int` on a string of digits. -/
def digitsVal (ds : List Char) : Nat :=
  ds.foldl (fun a c => a * 10 + (c.toNat - '0'.toNat)) 0

/-- `os.path.basename` on POSIX: the part after the last `/`. -/
def basename (p : String) : String :=
  ⟨(p.data.reverse.takeWhile (fun c => c ≠ '/')).reverse⟩

/-- Helper for `splitext_ext`: position of the last `.` that is preceded by
some non-`.` character (Python `os.path.splitext` ignores leading dots). -/
def splitextDotIdx : List Char → Nat → Bool → Option Nat → Option Nat
  | [], _, _, best => best
  | c :: rest, i, seen, best =>
    if c = '.' then splitextDotIdx rest (i + 1) seen (if seen then some i else best)
    else splitextDotIdx rest (i + 1) true best

/-- The extension component `os.path.splitext(name)[1]`. -/
def splitext_ext (name : String) : String :=
  match splitextDotIdx name.data 0 false none with
  | some i => ⟨name.data.drop i⟩
  | none => ""

/-- Known extensions, duplicated from the source constants. -/
def VIDEO_EXTENSIONS : List String := [".mkv", ".mp4", ".avi", ".mov", ".flv", ".wmv", ".m4v", ".webm"]

def SUBTITLE_EXTENSIONS : List String := [".srt", ".ass", ".ssa", ".vtt", ".sub"]

def NFO_EXTENSIONS : List String := [".nfo"]

def TARGET_EXTENSIONS : List String := VIDEO_EXTENSIONS ++ SUBTITLE_EXTENSIONS ++ NFO_EXTENSIONS

/-- `_is_target_file`: case-insensitive extension membership test. -/
def is_target_file (filename : String) : Bool :=
  let lower := pyLower filename
  TARGET_EXTENSIONS.any (fun ext => ext.data.isSuffixOf lower.data)

/-- Decimal digit character for a value below ten. -/
def digitChar (n : Nat) : Char := Char.ofNat ('0'.toNat + n)

/-- Fuelled decimal conversion; a fuel above the value always suffices since
the value shrinks by a factor of ten each step. -/
def natDigitsAux : Nat → Nat → List Char
  | 0, _ => []
  | fuel + 1, n =>
    if n < 10 then [digitChar n] else natDigitsAux fuel (n / 10) ++ [digitChar (n % 10)]

/-- Decimal representation of a natural number (no padding). -/
def natDigits (n : Nat) : List Char := natDigitsAux (n + 1) n

/-- Python `{:02d}` formatting: zero-padded to width two. -/
def pad2 (n : Nat) : String :=
  if n < 10 then ⟨'0' :: natDigits n⟩ else ⟨natDigits n⟩

/-- `_build_target_name`: `f"{series} S{season:02d}E{episode:02d}{ext}"`. -/
def build_target_name (series : String) (season episode : Nat) (ext : String) : String :=
  series ++ " S" ++ pad2 season ++ "E" ++ pad2 episode ++ ext

/-- Lexicographic `≤` on code points, as Python compares strings. -/
def listCharLe : List Char → List Char → Bool
  | [], _ => true
  | _ :: _, [] => false
  | a :: as, b :: bs =>
    if a.toNat < b.toNat then true
    else if b.toNat < a.toNat then false
    else listCharLe as bs

/-- Lexicographic `≤` on strings. -/
def strLe (a b : String) : Bool := listCharLe a.data b.data

/-- Insertion into a lexicographically sorted list of strings. -/
def insertSorted (x : String) : List String → List String
  | [] => [x]
  | y :: ys => if strLe x y then x :: y :: ys else y :: insertSorted x ys

/-- Python `sorted` on strings (lexicographic by code point). -/
def sortStrings (l : List String) : List String := l.foldr insertSorted []

/-- `re.search` driver: first position (left to right) where the positional
matcher `f` succeeds. -/
def scanFirst (f : List Char → Option Nat) : List Char → Option Nat
  | [] => none
  | c :: rest =>
    match f (c :: rest) with
    | some n => some n
    | none => scanFirst f rest

/-- First `some` among a list of alternatives (regex alternation order). -/
def firstSome : List (Option Nat) → Option Nat
  | [] => none
  | some n :: _ => some n
  | none :: rest => firstSome rest

/-- Case-insensitive literal prefix match, returning the remainder. -/
def ciDropPrefix : List Char → List Char → Option (List Char)
  | [], cs => some cs
  | _ :: _, [] => none
  | p :: ps, c :: cs => if p.toLower = c.toLower then ciDropPrefix ps cs else none

/-- Case-insensitive literal prefix test. -/
def ciIsPrefixOf (pat cs : List Char) : Bool := (ciDropPrefix pat cs).isSome

/-! ### Mode A: `_extract_by_nth_number`

The source compiles `(\d{1,3})(?:[vV]\d+)?` (suffix part only when
`ignore_version_suffix`) and enumerates matches with `finditer`.  A match
captures the first one-to-three digits of a digit run and, when enabled,
additionally consumes an immediately following `v`/`V` plus digits. -/

/-- Consume an optional version suffix `[vV]\d+` (greedy `\d+`). -/
def skip_version_suffix : List Char → List Char
  | v :: d :: rest =>
    if (v = 'v' || v = 'V') && d.isDigit then rest.dropWhile Char.isDigit
    else v :: d :: rest
  | other => other

/-- Fuelled `finditer` loop for the mode-A number pattern; the fuel is an
upper bound on scan steps, each step consuming at least one character. -/
def number_matches_aux (ivs : Bool) : Nat → List Char → List Nat
  | 0, _ => []
  | _ + 1, [] => []
  | fuel + 1, c :: rest =>
    if c.isDigit then
      let ds := ((c :: rest).takeWhile Char.isDigit).take 3
      let after := (c :: rest).drop ds.length
      digitsVal ds :: number_matches_aux ivs fuel (if ivs then skip_version_suffix after else after)
    else number_matches_aux ivs fuel rest

/-- All captured digit-group values of `pattern.finditer(base)`. -/
def number_matches (ivs : Bool) (cs : List Char) : List Nat :=
  number_matches_aux ivs (cs.length + 1) cs

/-- `_extract_by_nth_number(number_index, ignore_version_suffix)` applied to a
name: the N-th digit group, 1-based, index 0 treated as 1, a negative index
counting from the end (Python negative list indexing); `None` when the index
is out of range. -/
def extract_by_nth_number (number_index : Int) (ivs : Bool) (name : String) : Option Nat :=
  let ms := number_matches ivs (basename name).data
  if ms.isEmpty then none
  else
    let idx := if number_index = 0 then 1 else number_index
    if idx > 0 then ms[idx.toNat - 1]?
    else
      let j : Int := (ms.length : Int) + idx
      if 0 ≤ j then ms[j.toNat]? else none

/-! ### Mode B: `_find_bracket_spans` and `_extract_in_nth_bracket` -/

/-- Fuelled `str.find(pat, start)`: least `i ≥ start` with `pat` occurring at
`i` (and fitting inside `text`). -/
def strFindAux (text pat : List Char) : Nat → Nat → Option Nat
  | 0, _ => none
  | fuel + 1, i =>
    if i + pat.length ≤ text.length then
      if pat.isPrefixOf (text.drop i) then some i else strFindAux text pat fuel (i + 1)
    else none

/-- Python `text.find(pat, start)` (as an `Option` instead of `-1`). -/
def strFind (text pat : List Char) (start : Nat) : Option Nat :=
  strFindAux text pat (text.length + 1) start

/-- Fuelled while-loop of `_find_bracket_spans`; each iteration advances
`start`, so `text.length + 1` fuel always suffices. -/
def find_bracket_spans_aux (text openT closeT : List Char) : Nat → Nat → List (Nat × Nat)
  | 0, _ => []
  | fuel + 1, start =>
    if start < text.length then
      match strFind text openT start with
      | none => []
      | some s =>
        match strFind text closeT (s + openT.length) with
        | none => []
        | some e => (s + openT.length, e) :: find_bracket_spans_aux text openT closeT fuel (e + closeT.length)
    else []

/-- `_find_bracket_spans(text, open_tok, close_tok)`. -/
def find_bracket_spans (text openT closeT : List Char) : List (Nat × Nat) :=
  if openT.isEmpty || closeT.isEmpty then []
  else find_bracket_spans_aux text openT closeT (text.length + 1) 0

/-- `num_re.search(segment)` capture: the regex `(\d{1,3})(?:[vV]\d+)?`
matches first at the leftmost digit and captures up to three digits; the
optional version suffix never changes the captured value, so the model omits
it. -/
def search_first_number : List Char → Option Nat
  | [] => none
  | c :: rest =>
    if c.isDigit then some (digitsVal (((c :: rest).takeWhile Char.isDigit).take 3))
    else search_first_number rest

/-- `_extract_in_nth_bracket(open_tok, close_tok, bracket_index,
ignore_version_suffix)` applied to a name.  (`ivs` only toggles the version
suffix in the compiled regex, which cannot alter the captured value.) -/
def extract_in_nth_bracket (openTok closeTok : String) (bracket_index : Int) (ivs : Bool) (name : String) : Option Nat :=
  let base := (basename name).data
  let spans := find_bracket_spans base openTok.data closeTok.data
  let _ := ivs
  if spans.isEmpty then none
  else
    let idx := if bracket_index = 0 then 1 else bracket_index
    let span? :=
      if idx > 0 then spans[idx.toNat - 1]?
      else
        let j : Int := (spans.length : Int) + idx
        if 0 ≤ j then spans[j.toNat]? else none
    match span? with
    | none => none
    | some (s, e) => search_first_number ((base.take e).drop s)

/-! ### Mode F: `_extract_by_sample` -/

/-- The text after the first `\x7d` of a list, when there is one (the end of
the placeholder's `[^}]*\x7d` part). -/
def splitAtClose : List Char → Option (List Char)
  | [] => none
  | c :: rest => if c = '\x7d' then some rest else splitAtClose rest

/-- The search `re.search(r"\{([^}]*)\}", sample)`: the match exists exactly
when some `\x7d` follows the first `\x7b` (a later `\x7b` cannot succeed once
the first one fails); it yields the literal prefix before and the literal
suffix after the placeholder. -/
def findPlaceholder : List Char → Option (List Char × List Char)
  | [] => none
  | c :: rest =>
    if c = '\x7b' then (splitAtClose rest).map (fun suf => ([], suf))
    else (findPlaceholder rest).map (fun pr => (c :: pr.1, pr.2))

/-- Backtracking of the greedy `\d+` inside `(?:[vV]\d+)?<suffix>`: some
non-empty initial digit segment of `r3` may be consumed so that the literal
suffix matches right after it. -/
def sampleVsufOk (suf r3 : List Char) : Bool :=
  let t := (r3.takeWhile Char.isDigit).length
  (List.range t).any (fun m => ciIsPrefixOf suf (r3.drop (m + 1)))

/-- One backtracking alternative of `(\d{1,3})` taking exactly `k` digits,
then the optional version suffix, then the literal sample suffix. -/
def sampleTryLen (suf : List Char) (ivs : Bool) (run rest1 : List Char) (k : Nat) : Option Nat :=
  if 1 ≤ k && k ≤ run.length then
    let rest2 := rest1.drop k
    let okV := ivs && (match rest2 with
      | v :: r3 => (v = 'v' || v = 'V') && sampleVsufOk suf r3
      | [] => false)
    if okV || ciIsPrefixOf suf rest2 then some (digitsVal (run.take k)) else none
  else none

/-- Positional matcher of the compiled sample regex
`<prefix>(\d{1,3})(?:[vV]\d+)?<suffix>` with `re.IGNORECASE`; digit counts
are tried greedily (3, then 2, then 1). -/
def sampleMatchAt (pre suf : List Char) (ivs : Bool) (cs : List Char) : Option Nat :=
  match ciDropPrefix pre cs with
  | none => none
  | some rest1 =>
    let run := rest1.takeWhile Char.isDigit
    firstSome [sampleTryLen suf ivs run rest1 3, sampleTryLen suf ivs run rest1 2,
      sampleTryLen suf ivs run rest1 1]

/-- The matcher value produced by `_extract_by_sample` once construction
succeeded: `regex.search(os.path.basename(name))`. -/
def sample_extract (pre suf : List Char) (ivs : Bool) (name : String) : Option Nat :=
  scanFirst (sampleMatchAt pre suf ivs) (basename name).data

/-- `_extract_by_sample(sample, ignore_version_suffix)`: fails (raises
`ValueError`) when the sample has no placeholder; otherwise returns the
matcher built around the first placeholder. -/
def extract_by_sample (sample : String) (ivs : Bool) : Except String (String → Option Nat) :=
  match findPlaceholder sample.data with
  | none => .error "F mode sample must contain one placeholder marking episode digits"
  | some (pre, suf) => .ok (sample_extract pre suf ivs)

/-- Whether an `Except`-modelled construction succeeded (a raised Python
exception is the `error` case). -/
def exceptOkB {α : Type} : Except String α → Bool
  | .ok _ => true
  | .error _ => false

/-- Apply a successfully constructed matcher; `none` when construction
failed (used only to state facts about successful constructions). -/
def applyExtractor (x : Except String (String → Option Nat)) (name : String) : Option Nat :=
  match x with
  | .ok f => f name
  | .error _ => none

/-- Specification-level placeholder test: some `\x7d` occurs at or after the
first `\x7b` of the string (the `\x7b` itself is not a `\x7d`, so this says a
closing brace follows the first opening brace). -/
def hasPlaceholderB (s : String) : Bool :=
  (s.data.dropWhile (fun c => c ≠ '\x7b')).any (fun c => c = '\x7d')

/-- Fuelled count of the non-overlapping `\{[^}]*\}` placeholder occurrences
of a string, as `re.finditer` would enumerate them. -/
def countPlaceholdersAux : Nat → List Char → Nat
  | 0, _ => 0
  | _ + 1, [] => 0
  | fuel + 1, c :: rest =>
    if c = '\x7b' then
      match splitAtClose rest with
      | some suf => 1 + countPlaceholdersAux fuel suf
      | none => 0
    else countPlaceholdersAux fuel rest

/-- Number of placeholder occurrences of a sample string. -/
def countPlaceholders (s : String) : Nat :=
  countPlaceholdersAux (s.data.length + 1) s.data

/-! ### `_parse_season_from_dirname` and the heuristic
`_parse_episode_from_filename` -/

/-- Positional matcher of `season\s*(\d{1,2})` (case-insensitive). -/
def seasonMatchAt (cs : List Char) : Option Nat :=
  match ciDropPrefix ['s', 'e', 'a', 's', 'o', 'n'] cs with
  | none => none
  | some r =>
    let ds := ((r.dropWhile isSpaceChar).takeWhile Char.isDigit).take 2
    if ds.isEmpty then none else some (digitsVal ds)

/-- `_parse_season_from_dirname`. -/
def parse_season_from_dirname (dirname : String) : Option Nat :=
  scanFirst seasonMatchAt dirname.data

/-- Positional matcher of `S\d+E(\d{1,3})` (case-insensitive): `S`, a full
digit run, `E`, then up to three captured digits. -/
def matchSxEAt : List Char → Option Nat
  | [] => none
  | c :: rest =>
    if c.toLower = 's' then
      let ds := rest.takeWhile Char.isDigit
      if ds.isEmpty then none
      else
        match rest.drop ds.length with
        | [] => none
        | e :: rest2 =>
          if e.toLower = 'e' then
            let es := (rest2.takeWhile Char.isDigit).take 3
            if es.isEmpty then none else some (digitsVal es)
          else none
    else none

/-- Alternation literals of `(?:E|EP|Episode|第)`, in regex order. -/
def epTokens : List (List Char) := [['e'], ['e', 'p'], ['e', 'p', 'i', 's', 'o', 'd', 'e'], ['第']]

/-- Positional matcher of `(?:E|EP|Episode|第)\s*?(\d{1,3})`
(case-insensitive); the lazy `\s*?` succeeds exactly when the first
non-whitespace character after the token is a digit. -/
def matchEpTokenAt (cs : List Char) : Option Nat :=
  firstSome (epTokens.map (fun tok =>
    match ciDropPrefix tok cs with
    | none => none
    | some r =>
      let ds := ((r.dropWhile isSpaceChar).takeWhile Char.isDigit).take 3
      if ds.isEmpty then none else some (digitsVal ds)))

/-- Positional matcher of `\[(\d{1,3})(?:v\d+)?\]` (case-insensitive):
backtracking leaves only the alternatives modelled here, since shortening the
digit capture always puts a digit where `]`/`v` is required. -/
def matchBracketNumAt : List Char → Option Nat
  | [] => none
  | c :: t =>
    if c = '[' then
      let ds := t.takeWhile Char.isDigit
      if 1 ≤ ds.length && ds.length ≤ 3 then
        match t.drop ds.length with
        | [] => none
        | c2 :: t2 =>
          if c2 = ']' then some (digitsVal ds)
          else if c2 = 'v' || c2 = 'V' then
            let es := t2.takeWhile Char.isDigit
            if 1 ≤ es.length then
              match t2.drop es.length with
              | [] => none
              | c3 :: _ => if c3 = ']' then some (digitsVal ds) else none
            else none
          else none
      else none
    else none

/-- Positional matcher of `\s(\d{1,3})\s`. -/
def matchSpacedNumAt : List Char → Option Nat
  | [] => none
  | c :: t =>
    if isSpaceChar c then
      let ds := t.takeWhile Char.isDigit
      if 1 ≤ ds.length && ds.length ≤ 3 then
        match t.drop ds.length with
        | c2 :: _ => if isSpaceChar c2 then some (digitsVal ds) else none
        | [] => none
      else none
    else none

/-- `_parse_episode_from_filename`: the built-in heuristic chain, first match
wins; the final fallback is the last `\d{1,3}` group of `re.findall`. -/
def parse_episode_from_filename (filename : String) : Option Nat :=
  let base := (basename filename).data
  match scanFirst matchSxEAt base with
  | some n => some n
  | none =>
    match scanFirst matchEpTokenAt base with
    | some n => some n
    | none =>
      match scanFirst matchBracketNumAt base with
      | some n => some n
      | none =>
        match scanFirst matchSpacedNumAt base with
        | some n => some n
        | none => (number_matches false base).getLast?

/-! ### Configuration and the extractor factory -/

/-- A loaded `.organizer.toml`, with the defaults the source applies
(`_load_config` sets `ignore_version_suffix`/`on_miss`, the factory defaults
the mode parameters via `dict.get`). -/
structure OrgConfig where
  mode : String := ""
  on_miss : String := "error"
  ignore_version_suffix : Bool := true
  number_index : Int := 1
  bracket_open : String := "["
  bracket_close : String := "]"
  bracket_index : Int := 1
  sample : String := ""
deriving DecidableEq, Repr

/-- `_build_extractor_from_config`. -/
def build_extractor_from_config (config : OrgConfig) : Except String (String → Option Nat) :=
  let mode := pyUpper (pyStrip config.mode)
  if mode = "A" then .ok (extract_by_nth_number config.number_index config.ignore_version_suffix)
  else if mode = "B" then
    .ok (extract_in_nth_bracket config.bracket_open config.bracket_close config.bracket_index
      config.ignore_version_suffix)
  else if mode = "F" then
    if config.sample = "" then .error "F mode requires sample"
    else extract_by_sample config.sample config.ignore_version_suffix
  else .error "Unsupported or missing mode. Use A, B, or F"

/-! ### The filesystem model and `VideoOrganizer.organize`

The walker inspects exactly three levels of the tree: root entries (series),
series entries (season folders, loose files, the configuration file) and
season contents (inspected by name only — the source renames any entry whose
name has a target extension, without an `isfile` check).  Deeper contents are
never read, so season contents are modelled as name/kind pairs.  The content
of a well-formed `.organizer.toml` file is carried as its parsed
configuration. -/

/-- An entry of a season directory (or an entry moved into `Season 01` by
normalization): only its name and file/directory kind are ever consulted. -/
structure SubEntry where
  name : String
  isDir : Bool
deriving DecidableEq, Repr

/-- An entry of a series directory. `cfg` is the parsed content when the
entry is a well-formed `.organizer.toml` regular file, `none` otherwise;
`sub` is meaningful for directories. -/
structure SEntry where
  name : String
  isDir : Bool
  cfg : Option OrgConfig
  sub : List SubEntry
deriving DecidableEq, Repr

/-- An entry of the root directory. -/
structure REntry where
  name : String
  isDir : Bool
  entries : List SEntry
deriving DecidableEq, Repr

/-- `_load_config(series_path)`: the parsed `.organizer.toml` of the series
directory, `none` when the file is absent. -/
def load_config (entries : List SEntry) : Option OrgConfig :=
  match entries.find? (fun e => e.name == ".organizer.toml") with
  | some e => e.cfg
  | none => none

/-- Extractor selection at the top of the per-series loop: the heuristic with
`fail_fast = False` without a configuration, otherwise the configured
extractor with `fail_fast = (on_miss == 'error')` (the source computes
`on_miss` via `(str(...) or 'error').lower()`). -/
def chooseExtractor (cfg? : Option OrgConfig) :
    Except String ((String → Option Nat) × Bool) :=
  match cfg? with
  | none => .ok (parse_episode_from_filename, false)
  | some c =>
    match build_extractor_from_config c with
    | .error msg => .error msg
    | .ok ex =>
      let onMiss := pyLower (if c.on_miss = "" then "error" else c.on_miss)
      .ok (ex, onMiss == "error")

/-- Run-level failures of `organize`: an uncaught configuration error, an
uncaught filesystem error (`os.makedirs` meeting a file named `Season 01`),
or the final aggregated `RuntimeError` listing the unresolved relative
paths. -/
inductive OrgErr where
  | config (msg : String)
  | io (msg : String)
  | missing (paths : List String)
deriving DecidableEq, Repr

/-- Accumulators of `organize`: `renamed`, `total`, and the `missing` list of
unresolved paths relative to the root. -/
structure OrgSt where
  renamed : Nat
  total : Nat
  missing : List String
deriving DecidableEq, Repr

/-- Replace the first entry with the given name (a rename mutates exactly the
named directory entry). -/
def renameSubEntry (n d : String) : List SubEntry → List SubEntry
  | [] => []
  | e :: rest => if e.name == n then { e with name := d } :: rest else e :: renameSubEntry n d rest

/-- Replace the first series entry with the given name. -/
def replaceSEntry (n : String) (new : SEntry) : List SEntry → List SEntry
  | [] => []
  | e :: rest => if e.name == n then new :: rest else e :: replaceSEntry n new rest

/-- Replace the first root entry with the given name. -/
def replaceREntry (n : String) (new : REntry) : List REntry → List REntry
  | [] => []
  | e :: rest => if e.name == n then new :: rest else e :: replaceREntry n new rest

/-- The innermost loop of `organize` (`for name in sorted(os.listdir(season_path))`):
`snap` is the listing snapshot, `sub` the live directory contents consulted by
`os.path.exists` and mutated by `os.rename`. -/
def processFiles (dryRun : Bool) (ex : String → Option Nat) (seriesName seasonName : String)
    (seasonNum : Nat) : List String → List SubEntry → OrgSt → List SubEntry × OrgSt
  | [], sub, st => (sub, st)
  | name :: rest, sub, st =>
    if is_target_file name then
      let st1 : OrgSt := { st with total := st.total + 1 }
      match ex name with
      | none =>
        processFiles dryRun ex seriesName seasonName seasonNum rest sub
          { st1 with missing := st1.missing ++ [seriesName ++ "/" ++ seasonName ++ "/" ++ name] }
      | some episode =>
        let ext := splitext_ext name
        let dstName := build_target_name seriesName seasonNum episode ext
        if name = dstName then
          processFiles dryRun ex seriesName seasonName seasonNum rest sub st1
        else if sub.any (fun e => e.name == dstName) then
          processFiles dryRun ex seriesName seasonName seasonNum rest sub st1
        else if dryRun then
          processFiles dryRun ex seriesName seasonName seasonNum rest sub
            { st1 with renamed := st1.renamed + 1 }
        else
          processFiles dryRun ex seriesName seasonName seasonNum rest
            (renameSubEntry name dstName sub) { st1 with renamed := st1.renamed + 1 }
    else processFiles dryRun ex seriesName seasonName seasonNum rest sub st

/-- The per-season loop of `organize` (`for season_dir in season_dirs`). -/
def processSeasons (dryRun : Bool) (ex : String → Option Nat) (seriesName : String) :
    List String → List SEntry → OrgSt → List SEntry × OrgSt
  | [], entries, st => (entries, st)
  | d :: rest, entries, st =>
    match entries.find? (fun e => e.name == d) with
    | none => processSeasons dryRun ex seriesName rest entries st
    | some se =>
      if se.isDir then
        match parse_season_from_dirname d with
        | none => processSeasons dryRun ex seriesName rest entries st
        | some num =>
          let snap := sortStrings (se.sub.map (fun e => e.name))
          let r := processFiles dryRun ex seriesName d num snap se.sub st
          processSeasons dryRun ex seriesName rest (replaceSEntry d { se with sub := r.1 } entries) r.2
      else processSeasons dryRun ex seriesName rest entries st

/-- Season-directory test of the source: an entry that is a directory whose
name contains a season token. -/
def isSeasonDirOf (entries : List SEntry) (d : String) : Bool :=
  match entries.find? (fun e => e.name == d) with
  | some e => e.isDir && (parse_season_from_dirname d).isSome
  | none => false

/-- The body of `organize`'s per-series loop: configuration load, extractor
construction, `Season 01` normalization for series with loose files and no
season folders, then the season loop.  The `Bool` component of
`chooseExtractor` (the source's `fail_fast`) is computed but — exactly as in
the source — never used afterwards. -/
def processSeries (dryRun : Bool) (re : REntry) (st : OrgSt) : Option OrgErr × REntry × OrgSt :=
  match chooseExtractor (load_config re.entries) with
  | .error msg => (some (.config msg), re, st)
  | .ok (ex, _failFast) =>
    let names := sortStrings (re.entries.map (fun e => e.name))
    let seasonDirs := names.filter (isSeasonDirOf re.entries)
    if seasonDirs.isEmpty then
      let hasFiles := names.any (fun n =>
        match re.entries.find? (fun e => e.name == n) with
        | some e => !e.isDir
        | none => false)
      if hasFiles then
        if dryRun then
          -- only "Would create"/"Would move" logging; the re-listing is
          -- unchanged and season_dirs stays empty, so nothing more happens
          (none, re, st)
        else if re.entries.any (fun e => e.name == "Season 01") then
          -- only a non-directory can carry this name here (a directory would
          -- have been a season dir), so os.makedirs raises FileExistsError
          (some (.io "Season 01 exists and is not a directory"), re, st)
        else
          let moved : List SubEntry := names.filterMap (fun n =>
            (re.entries.find? (fun e => e.name == n)).map (fun e => ⟨e.name, e.isDir⟩))
          let season01 : SEntry := ⟨"Season 01", true, none, moved⟩
          -- re-listing after the moves: only "Season 01" remains
          let r := processSeasons dryRun ex re.name ["Season 01"] [season01] st
          (none, { re with entries := r.1 }, r.2)
      else (none, re, st)
    else
      let r := processSeasons dryRun ex re.name seasonDirs re.entries st
      (none, { re with entries := r.1 }, r.2)

/-- The per-series loop over `sorted(os.listdir(self.root_dir))`; an uncaught
exception aborts the walk with the tree mutated so far. -/
def organizeGo (dryRun : Bool) : List String → List REntry → OrgSt → Option OrgErr × List REntry × OrgSt
  | [], root, st => (none, root, st)
  | n :: rest, root, st =>
    match root.find? (fun e => e.name == n) with
    | none => organizeGo dryRun rest root st
    | some re =>
      if re.isDir then
        match processSeries dryRun re st with
        | (some err, re', st') => (some err, replaceREntry n re' root, st')
        | (none, re', st') => organizeGo dryRun rest (replaceREntry n re' root) st'
      else organizeGo dryRun rest root st

/-- `VideoOrganizer.organize` on a root directory (the root is assumed to
exist; the source otherwise returns `(0, 0)` immediately).  Returns the
outcome together with the resulting tree.  Note the final failure check: the
run raises whenever `missing` is non-empty, for every series — the computed
`fail_fast` flag is never consulted. -/
def organize (dryRun : Bool) (root : List REntry) : Except OrgErr (Nat × Nat) × List REntry :=
  match organizeGo dryRun (sortStrings (root.map (fun e => e.name))) root ⟨0, 0, []⟩ with
  | (some err, root', _) => (.error err, root')
  | (none, root', st) =>
    if st.missing.isEmpty then (.ok (st.renamed, st.total), root')
    else (.error (.missing st.missing), root')

/-! ### Concrete instances used by the claims -/

/-- Names of a season directory's entries. -/
def subNames (sub : List SubEntry) : List String := sub.map (fun e => e.name)

/-- A heuristic-fallback series (no `.organizer.toml`) whose only file has no
digits, so the heuristic extractor cannot resolve it. -/
def c1TreeHeuristic : List REntry :=
  [⟨"Show", true, [⟨"Season 01", true, none, [⟨"opening.mkv", false⟩]⟩]⟩]

/-- A configured series with `on_miss = "skip"` (so `fail_fast = False`)
whose only file mode A cannot resolve. -/
def c1TreeSkip : List REntry :=
  [⟨"Show", true,
    [⟨".organizer.toml", false, some { mode := "A", on_miss := "skip" }, []⟩,
      ⟨"Season 01", true, none, [⟨"opening.mkv", false⟩]⟩]⟩]

/-- Two files of one season both resolving to episode 3. -/
def c4Tree : List REntry :=
  [⟨"S", true, [⟨"Season 01", true, none,
    [⟨"a3x.mkv", false⟩, ⟨"b3.mkv", false⟩]⟩]⟩]

/-- `c4Tree` after one live run: the first file (in sorted order) was renamed
to the canonical name, the second was skipped because the destination
exists. -/
def c4TreeAfter : List REntry :=
  [⟨"S", true, [⟨"Season 01", true, none,
    [⟨"S S01E03.mkv", false⟩, ⟨"b3.mkv", false⟩]⟩]⟩]

/-- A mode-A series about to be renamed into canonical form. -/
def c6Tree : List REntry :=
  [⟨"Show", true,
    [⟨".organizer.toml", false, some { mode := "A" }, []⟩,
      ⟨"Season 01", true, none, [⟨"x 05.mkv", false⟩]⟩]⟩]

/-- A heuristic series already holding a season directory, whose single file
re-extracts stably: two live runs agree after the first. -/
def c6GoodTree : List REntry :=
  [⟨"Show", true, [⟨"Season 01", true, none, [⟨"x 05.mkv", false⟩]⟩]⟩]

/-! ### Predicates for the amended idempotence claim (C6) -/

/-- Duplicate-freedom of a name list, as an executable check. -/
def namesNodupB : List String → Bool
  | [] => true
  | n :: rest => !(rest.any (fun m => m == n)) && namesNodupB rest

/-- One season entry is *stable and conflict-free* under extractor `ex`: if
it is a target, its episode resolves, the extractor re-extracts the same
episode from the canonical destination name (whose extension splits back to
the same extension), and the entry is either already canonical or no other
target of the season maps to the same destination. -/
def entryGoodB (ex : String → Option Nat) (sn : String) (num : Nat)
    (sub : List SubEntry) (e : SubEntry) : Bool :=
  !(is_target_file e.name) ||
    (match ex e.name with
     | none => false
     | some ep =>
       let c := build_target_name sn num ep (splitext_ext e.name)
       (ex c == some ep) && (splitext_ext c == splitext_ext e.name) &&
         ((c == e.name) ||
           sub.all (fun e2 =>
             (e2.name == e.name) || !(is_target_file e2.name) ||
               (match ex e2.name with
                | none => true
                | some ep2 =>
                  !(build_target_name sn num ep2 (splitext_ext e2.name) == c)))))

/-- A season is good for idempotence: duplicate-free names and every entry
stable and conflict-free. -/
def seasonGoodB (ex : String → Option Nat) (sn : String) (num : Nat)
    (sub : List SubEntry) : Bool :=
  namesNodupB (subNames sub) && sub.all (entryGoodB ex sn num sub)

/-- After a run, a season is a fixpoint: every target entry resolves and is
either already canonical or its destination name is present. -/
def seasonPost (ex : String → Option Nat) (sn : String) (num : Nat)
    (sub : List SubEntry) : Prop :=
  ∀ e ∈ sub, is_target_file e.name = true →
    ∃ ep, ex e.name = some ep ∧
      (build_target_name sn num ep (splitext_ext e.name) = e.name ∨
        (sub.any (fun e2 =>
          e2.name == build_target_name sn num ep (splitext_ext e.name))) = true)

/-- The part of a series-entry list the walker re-reads on a second run:
names, kinds and configuration contents (everything except season
contents). -/
def entriesShape (entries : List SEntry) : List (String × Bool × Option OrgConfig) :=
  entries.map (fun e => (e.name, e.isDir, e.cfg))

/-- A series is good for idempotence: its extractor builds, its entry names
are duplicate-free, it has at least one season directory (so no `Season 01`
normalization happens), and every season is good under the series'
extractor. -/
def SeriesGood (re : REntry) : Prop :=
  ∃ exff : (String → Option Nat) × Bool,
    chooseExtractor (load_config re.entries) = .ok exff ∧
      namesNodupB (re.entries.map (fun e => e.name)) = true ∧
      ((sortStrings (re.entries.map (fun e => e.name))).filter
        (isSeasonDirOf re.entries)).isEmpty = false ∧
      ∀ se ∈ re.entries, ∀ num : Nat, se.isDir = true →
        parse_season_from_dirname se.name = some num →
        seasonGoodB exff.1 re.name num se.sub = true

/-- A series after a run: the extractor still builds, season directories are
still present, and every season is a fixpoint. -/
def SeriesPost (re : REntry) : Prop :=
  ∃ exff : (String → Option Nat) × Bool,
    chooseExtractor (load_config re.entries) = .ok exff ∧
      namesNodupB (re.entries.map (fun e => e.name)) = true ∧
      ((sortStrings (re.entries.map (fun e => e.name))).filter
        (isSeasonDirOf re.entries)).isEmpty = false ∧
      ∀ se ∈ re.entries, ∀ num : Nat, se.isDir = true →
        parse_season_from_dirname se.name = some num →
        namesNodupB (subNames se.sub) = true ∧ seasonPost exff.1 re.name num se.sub

/-- A season entry that the walker never renames: not a target, or already
canonical. -/
def staysEntry (ex : String → Option Nat) (sn : String) (num : Nat) (e : SubEntry) : Prop :=
  is_target_file e.name = false ∨
    ∃ ep, ex e.name = some ep ∧ build_target_name sn num ep (splitext_ext e.name) = e.name

/-- A target entry whose destination is permanently occupied by a staying
entry of the original season. -/
def blockedEntry (ex : String → Option Nat) (sn : String) (num : Nat)
    (sub0 : List SubEntry) (e : SubEntry) : Prop :=
  is_target_file e.name = true ∧
    ∃ ep, ex e.name = some ep ∧
      ∃ e2 ∈ sub0, e2.name = build_target_name sn num ep (splitext_ext e.name) ∧
        staysEntry ex sn num e2

/-- An entry that is the renamed (canonical) version of an already-processed
original entry. -/
def renamedEntry (ex : String → Option Nat) (sn : String) (num : Nat)
    (sub0 : List SubEntry) (snap : List String) (e : SubEntry) : Prop :=
  ∃ e0 ∈ sub0, ∃ ep, is_target_file e0.name = true ∧ ex e0.name = some ep ∧
    e = { e0 with name := build_target_name sn num ep (splitext_ext e0.name) } ∧
    ¬ e0.name ∈ snap

/-- Loop invariant of the first run over one season: `sub0` is the original
content, `snap` the not-yet-processed part of the sorted listing, `sub` the
live content. -/
def runInv (ex : String → Option Nat) (sn : String) (num : Nat)
    (sub0 : List SubEntry) (snap : List String) (sub : List SubEntry) : Prop :=
  namesNodupB (subNames sub) = true ∧
    (∀ n ∈ snap, ∃ e, e ∈ sub0 ∧ e ∈ sub ∧ e.name = n) ∧
    (∀ e ∈ sub,
      (e ∈ sub0 ∧ (e.name ∈ snap ∨ staysEntry ex sn num e ∨ blockedEntry ex sn num sub0 e)) ∨
        renamedEntry ex sn num sub0 snap e) ∧
    (∀ e0 ∈ sub0, staysEntry ex sn num e0 → e0 ∈ sub)

/-- Mixed invariant of the per-season loop of the first run: seasons still to
be processed are good, processed ones are fixpoints. -/
def entriesMixed (ex : String → Option Nat) (sn : String) (ds : List String)
    (entries : List SEntry) : Prop :=
  ∀ se ∈ entries, ∀ num : Nat, se.isDir = true →
    parse_season_from_dirname se.name = some num →
    (se.name ∈ ds → seasonGoodB ex sn num se.sub = true) ∧
      (¬ se.name ∈ ds →
        namesNodupB (subNames se.sub) = true ∧ seasonPost ex sn num se.sub)

/-- Mixed invariant of the per-series loop of the first run. -/
def rootMixed (ds : List String) (root : List REntry) : Prop :=
  ∀ re ∈ root, re.isDir = true →
    (re.name ∈ ds → SeriesGood re) ∧ (¬ re.name ∈ ds → SeriesPost re)

/-- A tree is good for idempotence when its series names are duplicate-free
and every series directory is good. -/
def RootGood (root : List REntry) : Prop :=
  namesNodupB (root.map (fun e => e.name)) = true ∧
    ∀ re ∈ root, re.isDir = true → SeriesGood re

/-- Every series directory of the tree is a fixpoint. -/
def RootPost (root : List REntry) : Prop :=
  namesNodupB (root.map (fun e => e.name)) = true ∧
    ∀ re ∈ root, re.isDir = true → SeriesPost re

/-! ## Shared lemmas -/

theorem takeWhile_idem (p : Char → Bool) (l : List Char) :
    (l.takeWhile p).takeWhile p = l.takeWhile p := by
  induction l with
  | nil => rfl
  | cons c cs ih => by_cases h : p c <;> simp [List.takeWhile, h, ih]

theorem basename_basename (p : String) : basename (basename p) = basename p := by
  simp [basename, List.reverse_reverse, takeWhile_idem]

theorem char_digit_val_le {c : Char} (h : c.isDigit = true) : c.toNat - '0'.toNat ≤ 9 := by
  simp only [Char.isDigit, Bool.and_eq_true, decide_eq_true_eq] at h
  obtain ⟨h1, h2⟩ := h
  have h1' : (48 : Nat) ≤ c.val.toNat := h1
  have h2' : c.val.toNat ≤ (57 : Nat) := h2
  have e0 : ('0' : Char).toNat = 48 := rfl
  simp only [Char.toNat] at *
  omega

theorem digitsVal_foldl_le (ds : List Char) (hds : ∀ c ∈ ds, c.isDigit = true) :
    ∀ a : Nat, ds.foldl (fun a c => a * 10 + (c.toNat - '0'.toNat)) a ≤
      a * 10 ^ ds.length + (10 ^ ds.length - 1) := by
  induction ds with
  | nil => intro a; simp
  | cons d ds ih =>
    intro a
    have hd : d.toNat - '0'.toNat ≤ 9 := char_digit_val_le (hds d (by simp))
    have h2 := ih (fun c hc => hds c (by simp [hc])) (a * 10 + (d.toNat - '0'.toNat))
    simp only [List.foldl_cons, List.length_cons]
    refine le_trans h2 ?_
    rw [pow_succ]
    set p := 10 ^ ds.length with hp'
    have hp : 1 ≤ p := Nat.one_le_pow _ _ (by omega)
    have expand : (a * 10 + (d.toNat - '0'.toNat)) * p
        = a * (p * 10) + (d.toNat - '0'.toNat) * p := by ring
    rw [expand]
    set X := a * (p * 10) with hX
    set Y := (d.toNat - '0'.toNat) * p with hY
    have h9 : Y ≤ 9 * p := by rw [hY]; exact Nat.mul_le_mul_right p hd
    omega

theorem digitsVal_le_999 {ds : List Char} (hds : ∀ c ∈ ds, c.isDigit = true)
    (hlen : ds.length ≤ 3) : digitsVal ds ≤ 999 := by
  have := digitsVal_foldl_le ds hds 0
  have hpow : 10 ^ ds.length ≤ 10 ^ 3 := Nat.pow_le_pow_right (by omega) hlen
  simp only [digitsVal]
  omega

theorem capture_le_999 (l : List Char) (k : Nat) (hk : k ≤ 3) :
    digitsVal ((l.takeWhile Char.isDigit).take k) ≤ 999 := by
  refine digitsVal_le_999 (fun c hc => ?_) ?_
  · exact List.mem_takeWhile_imp (List.mem_of_mem_take hc)
  · calc ((l.takeWhile Char.isDigit).take k).length ≤ k := by simp
      _ ≤ 3 := hk

theorem digitsVal_takeWhile_le_999 {l : List Char}
    (h : (l.takeWhile Char.isDigit).length ≤ 3) : digitsVal (l.takeWhile Char.isDigit) ≤ 999 :=
  digitsVal_le_999 (fun _ hc => List.mem_takeWhile_imp hc) h

theorem scanFirst_le (f : List Char → Option Nat)
    (hf : ∀ cs n, f cs = some n → n ≤ 999) :
    ∀ cs n, scanFirst f cs = some n → n ≤ 999 := by
  intro cs
  induction cs with
  | nil => intro n h; simp [scanFirst] at h
  | cons c rest ih =>
    intro n h
    simp only [scanFirst] at h
    cases hf0 : f (c :: rest) with
    | some m =>
      rw [hf0] at h
      simp only [Option.some.injEq] at h
      exact h ▸ hf _ _ hf0
    | none => rw [hf0] at h; exact ih n h

theorem firstSome_mem {l : List (Option Nat)} {n : Nat} (h : firstSome l = some n) :
    some n ∈ l := by
  induction l with
  | nil => simp [firstSome] at h
  | cons o rest ih =>
    cases o with
    | some m => simp only [firstSome] at h; simp [h]
    | none => simp only [firstSome] at h; simp [ih h]

theorem number_matches_aux_le (ivs : Bool) :
    ∀ (fuel : Nat) (cs : List Char) (n : Nat), n ∈ number_matches_aux ivs fuel cs → n ≤ 999 := by
  intro fuel
  induction fuel with
  | zero => intro cs n h; simp [number_matches_aux] at h
  | succ f ih =>
    intro cs n h
    cases cs with
    | nil => simp [number_matches_aux] at h
    | cons c rest =>
      by_cases hd : c.isDigit
      · simp only [number_matches_aux, hd, if_true, List.mem_cons] at h
        rcases h with h | h
        · exact h ▸ capture_le_999 _ 3 (by omega)
        · exact ih _ _ h
      · simp only [number_matches_aux, hd, if_false] at h
        exact ih _ _ h

theorem number_matches_le {ivs : Bool} {cs : List Char} {n : Nat}
    (h : n ∈ number_matches ivs cs) : n ≤ 999 :=
  number_matches_aux_le ivs _ cs n h

/-! ## C2: mode A on `"Show [05v2] 1080p.mkv"` -/

/-- C2 counterexample: the claim says `number_index=2` yields `1080`, but the
digit groups of the source's `\d{1,3}` pattern are capped at three digits, so
the second group of `"Show [05v2] 1080p.mkv"` is `108` (the groups are
`05`, `108`, `0`), not `1080`. -/
theorem c2_counterexample :
    extract_by_nth_number 2 true "Show [05v2] 1080p.mkv" = some 108 ∧
      ¬ extract_by_nth_number 2 true "Show [05v2] 1080p.mkv" = some 1080 := by
  decide

/-- C2 (amended): mode A with `ignore_version_suffix = true` on
`"Show [05v2] 1080p.mkv"` returns `5` at `number_index = 1` (the `v2`
suffix is excluded) and `108` at `number_index = 2` (each digit group has at
most three digits, so `1080` splits into the groups `108` and `0`). -/
theorem c2_mode_a_values :
    extract_by_nth_number 1 true "Show [05v2] 1080p.mkv" = some 5 ∧
      extract_by_nth_number 2 true "Show [05v2] 1080p.mkv" = some 108 := by
  decide

/-! ## C3: mode F construction -/

theorem splitAtClose_isSome (l : List Char) :
    (splitAtClose l).isSome = l.any (fun c => c = '\x7d') := by
  induction l with
  | nil => rfl
  | cons c rest ih => by_cases h : c = '\x7d' <;> simp [splitAtClose, h, ih]

theorem findPlaceholder_isSome (l : List Char) :
    (findPlaceholder l).isSome =
      (l.dropWhile (fun c => c ≠ '\x7b')).any (fun c => c = '\x7d') := by
  induction l with
  | nil => rfl
  | cons c rest ih =>
    by_cases h : c = '\x7b'
    · simp [findPlaceholder, List.dropWhile, h, splitAtClose_isSome]
    · simp [findPlaceholder, List.dropWhile, h, ih]

theorem extract_by_sample_ok (s : String) (ivs : Bool) :
    exceptOkB (extract_by_sample s ivs) = hasPlaceholderB s := by
  simp only [extract_by_sample, hasPlaceholderB]
  cases hfp : findPlaceholder s.data with
  | none =>
    have := findPlaceholder_isSome s.data
    rw [hfp] at this
    simp only [exceptOkB]
    exact this
  | some pr =>
    have := findPlaceholder_isSome s.data
    rw [hfp] at this
    simp only [exceptOkB]
    exact this

/-- C3 counterexample: the claim says construction fails when the sample has
more than one placeholder; the sample `"[{07}] {2} T"` has two placeholders,
yet construction succeeds (the source only checks that `re.search` finds a
first placeholder). -/
theorem c3_counterexample :
    countPlaceholders "[\x7b07\x7d] \x7b2\x7d T" = 2 ∧
      exceptOkB (extract_by_sample "[\x7b07\x7d] \x7b2\x7d T" true) = true := by
  decide

/-- C3 (amended): mode F construction — directly or through the factory,
which additionally rejects the (placeholder-free) empty sample — fails
exactly when the sample contains no placeholder; with one or more
placeholders it succeeds, is built around the first placeholder, and the
matcher from sample `"[{07}] Title"` applied to `"[12] Title.mkv"` returns
`12`. -/
theorem c3_sample_construction :
    (∀ (s : String) (ivs : Bool), exceptOkB (extract_by_sample s ivs) = hasPlaceholderB s) ∧
      (∀ (s : String) (ivs : Bool),
        exceptOkB (build_extractor_from_config
          { mode := "F", sample := s, ignore_version_suffix := ivs }) = hasPlaceholderB s) ∧
      applyExtractor (extract_by_sample "[\x7b07\x7d] Title" true) "[12] Title.mkv" = some 12 := by
  refine ⟨extract_by_sample_ok, fun s ivs => ?_, by decide⟩
  simp only [build_extractor_from_config]
  have ht : pyUpper (pyStrip "F") = "F" := by decide
  rw [ht]
  rw [if_neg (by decide), if_neg (by decide), if_pos rfl]
  by_cases hs : s = ""
  · subst hs; rfl
  · rw [if_neg hs]; exact extract_by_sample_ok s ivs

/-! ## C7: mode A index normalization -/

/-- C7 counterexample: a negative `number_index` is not normalized to 1 — the
source indexes from the end (`matches[idx]` with Python negative indexing):
on `"a1b2c.mkv"` the digit groups are `1, 2`, and index `-1` returns the
last group `2` while index `1` returns `1`. -/
theorem c7_counterexample :
    extract_by_nth_number (-1) true "a1b2c.mkv" = some 2 ∧
      extract_by_nth_number 1 true "a1b2c.mkv" = some 1 := by
  decide

/-- C7 (amended): `number_index = 0` is normalized to 1 (the first digit
group), but a negative index selects from the end: `-k` (for `1 ≤ k ≤` the
number of groups `L`) selects the same group as positive index `L + 1 - k`. -/
theorem c7_index_normalization :
    (∀ (ivs : Bool) (s : String),
      extract_by_nth_number 0 ivs s = extract_by_nth_number 1 ivs s) ∧
      (∀ (ivs : Bool) (s : String) (k : Nat), 0 < k →
        k ≤ (number_matches ivs (basename s).data).length →
        extract_by_nth_number (-(k : Int)) ivs s =
          extract_by_nth_number (((number_matches ivs (basename s).data).length + 1 - k : Nat) : Int) ivs s) := by
  constructor
  · intro ivs s
    simp [extract_by_nth_number]
  · intro ivs s k hk hkle
    simp only [extract_by_nth_number]
    generalize hms : number_matches ivs (basename s).data = ms at hkle ⊢
    have hlen : 0 < ms.length := lt_of_lt_of_le hk hkle
    have hne : ms.isEmpty = false := by
      cases ms with
      | nil => simp at hlen
      | cons a l => rfl
    rw [hne]
    simp only [Bool.false_eq_true, if_false]
    have hkz : ¬ (-(k : Int) = 0) := by omega
    have hkpos : ¬ ((-(k : Int)) > 0) := by omega
    rw [if_neg hkz, if_neg hkpos]
    have hN : ¬ (((ms.length + 1 - k : Nat) : Int) = 0) := by omega
    have hNpos : (((ms.length + 1 - k : Nat) : Int) > 0) := by omega
    rw [if_neg hN, if_pos hNpos]
    have hj : (0 : Int) ≤ (ms.length : Int) + (-(k : Int)) := by omega
    rw [if_pos hj]
    congr 1
    omega

/-- C7 witness: concrete instantiation of the amended statement. -/
theorem c7_index_normalization_witness :
    extract_by_nth_number (-1) true "a1b2c.mkv" =
      extract_by_nth_number (((number_matches true (basename "a1b2c.mkv").data).length + 1 - 1 : Nat) : Int) true "a1b2c.mkv" := by
  have h := c7_index_normalization.2 true "a1b2c.mkv" 1 (by decide)
    (by decide)
  simpa using h

/-! ## C9: mode B with an empty bracket token -/

/-- C9: a mode-B matcher whose `bracket_open` or `bracket_close` token is
empty finds no bracket spans (`_find_bracket_spans` returns `[]` right away)
and therefore returns `None` on every input name. -/
theorem c9_empty_bracket_token :
    (∀ (closeTok : String) (bi : Int) (ivs : Bool) (name : String),
      extract_in_nth_bracket "" closeTok bi ivs name = none) ∧
      (∀ (openTok : String) (bi : Int) (ivs : Bool) (name : String),
        extract_in_nth_bracket openTok "" bi ivs name = none) := by
  constructor <;> intro tok bi ivs name <;>
    simp [extract_in_nth_bracket, find_bracket_spans]

/-! ## C8: all matchers depend only on the basename -/

/-- C8: every matcher first takes `os.path.basename` of its input, so its
value at any path equals its value at the part after the last `/`: the
heuristic chain, mode A, mode B and (once constructed) mode F all ignore the
directory components. -/
theorem c8_basename_only :
    (∀ p : String, parse_episode_from_filename p = parse_episode_from_filename (basename p)) ∧
      (∀ (i : Int) (ivs : Bool) (p : String),
        extract_by_nth_number i ivs p = extract_by_nth_number i ivs (basename p)) ∧
      (∀ (o c : String) (bi : Int) (ivs : Bool) (p : String),
        extract_in_nth_bracket o c bi ivs p = extract_in_nth_bracket o c bi ivs (basename p)) ∧
      (∀ (pre suf : List Char) (ivs : Bool) (p : String),
        sample_extract pre suf ivs p = sample_extract pre suf ivs (basename p)) := by
  refine ⟨fun p => ?_, fun i ivs p => ?_, fun o c bi ivs p => ?_, fun pre suf ivs p => ?_⟩
  · simp only [parse_episode_from_filename, basename_basename]
  · simp only [extract_by_nth_number, basename_basename]
  · simp only [extract_in_nth_bracket, basename_basename]
  · simp only [sample_extract, basename_basename]

/-! ## C10: every extracted episode number is at most 999 -/

theorem search_first_number_le :
    ∀ (cs : List Char) (n : Nat), search_first_number cs = some n → n ≤ 999 := by
  intro cs
  induction cs with
  | nil => intro n h; simp [search_first_number] at h
  | cons c rest ih =>
    intro n h
    simp only [search_first_number] at h
    split at h
    · simp only [Option.some.injEq] at h
      exact h ▸ capture_le_999 _ 3 (by omega)
    · exact ih n h

theorem matchSxEAt_le : ∀ (cs : List Char) (n : Nat), matchSxEAt cs = some n → n ≤ 999 := by
  intro cs n h
  cases cs with
  | nil => simp [matchSxEAt] at h
  | cons c rest =>
    simp only [matchSxEAt] at h
    split at h
    · split at h
      · simp at h
      · split at h
        · simp at h
        · split at h
          · split at h
            · simp at h
            · simp only [Option.some.injEq] at h
              exact h ▸ capture_le_999 _ 3 (by omega)
          · simp at h
    · simp at h

theorem matchEpTokenAt_le : ∀ (cs : List Char) (n : Nat), matchEpTokenAt cs = some n → n ≤ 999 := by
  intro cs n h
  have hmem := firstSome_mem h
  rcases List.mem_map.mp hmem with ⟨tok, _, htok⟩
  cases hpre : ciDropPrefix tok cs with
  | none => rw [hpre] at htok; simp at htok
  | some r =>
    rw [hpre] at htok
    dsimp only at htok
    by_cases hds : (((r.dropWhile isSpaceChar).takeWhile Char.isDigit).take 3).isEmpty = true
    · rw [if_pos hds] at htok; exact absurd htok (by simp)
    · rw [if_neg hds] at htok
      simp only [Option.some.injEq] at htok
      exact htok ▸ capture_le_999 _ 3 (by omega)

theorem matchBracketNumAt_le :
    ∀ (cs : List Char) (n : Nat), matchBracketNumAt cs = some n → n ≤ 999 := by
  intro cs n h
  cases cs with
  | nil => simp [matchBracketNumAt] at h
  | cons c rest =>
    simp only [matchBracketNumAt] at h
    split at h
    · split at h
      · rename_i hguard
        simp only [Bool.and_eq_true, decide_eq_true_eq] at hguard
        split at h
        · simp at h
        · split at h
          · simp only [Option.some.injEq] at h
            exact h ▸ digitsVal_takeWhile_le_999 (by omega)
          · split at h
            · split at h
              · split at h
                · simp at h
                · split at h
                  · simp only [Option.some.injEq] at h
                    exact h ▸ digitsVal_takeWhile_le_999 (by omega)
                  · simp at h
              · simp at h
            · simp at h
      · simp at h
    · simp at h

theorem matchSpacedNumAt_le :
    ∀ (cs : List Char) (n : Nat), matchSpacedNumAt cs = some n → n ≤ 999 := by
  intro cs n h
  cases cs with
  | nil => simp [matchSpacedNumAt] at h
  | cons c rest =>
    simp only [matchSpacedNumAt] at h
    split at h
    · split at h
      · rename_i hguard
        simp only [Bool.and_eq_true, decide_eq_true_eq] at hguard
        split at h
        · split at h
          · simp only [Option.some.injEq] at h
            exact h ▸ digitsVal_takeWhile_le_999 (by omega)
          · simp at h
        · simp at h
      · simp at h
    · simp at h

theorem parse_episode_from_filename_le (name : String) (n : Nat)
    (h : parse_episode_from_filename name = some n) : n ≤ 999 := by
  simp only [parse_episode_from_filename] at h
  cases h1 : scanFirst matchSxEAt (basename name).data with
  | some m =>
    rw [h1] at h; simp only [Option.some.injEq] at h
    exact h ▸ scanFirst_le _ matchSxEAt_le _ _ h1
  | none =>
    rw [h1] at h
    cases h2 : scanFirst matchEpTokenAt (basename name).data with
    | some m =>
      rw [h2] at h; simp only [Option.some.injEq] at h
      exact h ▸ scanFirst_le _ matchEpTokenAt_le _ _ h2
    | none =>
      rw [h2] at h
      cases h3 : scanFirst matchBracketNumAt (basename name).data with
      | some m =>
        rw [h3] at h; simp only [Option.some.injEq] at h
        exact h ▸ scanFirst_le _ matchBracketNumAt_le _ _ h3
      | none =>
        rw [h3] at h
        cases h4 : scanFirst matchSpacedNumAt (basename name).data with
        | some m =>
          rw [h4] at h; simp only [Option.some.injEq] at h
          exact h ▸ scanFirst_le _ matchSpacedNumAt_le _ _ h4
        | none =>
          rw [h4] at h
          exact number_matches_le (List.mem_of_mem_getLast? h)

theorem extract_by_nth_number_le (i : Int) (ivs : Bool) (name : String) (n : Nat)
    (h : extract_by_nth_number i ivs name = some n) : n ≤ 999 := by
  have hidx : ∀ k : Nat, (number_matches ivs (basename name).data)[k]? = some n → n ≤ 999 :=
    fun _ hk => number_matches_le (List.getElem?_mem hk)
  simp only [extract_by_nth_number] at h
  by_cases he : (number_matches ivs (basename name).data).isEmpty = true
  · rw [if_pos he] at h; exact absurd h (by simp)
  · rw [if_neg he] at h
    by_cases hp : (if i = 0 then 1 else i) > 0
    · rw [if_pos hp] at h; exact hidx _ h
    · rw [if_neg hp] at h
      by_cases hj : (0 : Int) ≤
          ((number_matches ivs (basename name).data).length : Int) + (if i = 0 then 1 else i)
      · rw [if_pos hj] at h; exact hidx _ h
      · rw [if_neg hj] at h; exact absurd h (by simp)

theorem extract_in_nth_bracket_le (o c : String) (bi : Int) (ivs : Bool) (name : String)
    (n : Nat) (h : extract_in_nth_bracket o c bi ivs name = some n) : n ≤ 999 := by
  simp only [extract_in_nth_bracket] at h
  split at h
  · simp at h
  · split at h
    · simp at h
    · exact search_first_number_le _ _ h

theorem sampleTryLen_le (suf : List Char) (ivs : Bool) (rest1 : List Char) (k : Nat)
    (hk : k ≤ 3) (n : Nat)
    (h : sampleTryLen suf ivs (rest1.takeWhile Char.isDigit) rest1 k = some n) : n ≤ 999 := by
  simp only [sampleTryLen] at h
  split at h
  · split at h
    · simp only [Option.some.injEq] at h
      exact h ▸ capture_le_999 rest1 k hk
    · simp at h
  · simp at h

theorem sampleMatchAt_le (pre suf : List Char) (ivs : Bool) :
    ∀ (cs : List Char) (n : Nat), sampleMatchAt pre suf ivs cs = some n → n ≤ 999 := by
  intro cs n h
  simp only [sampleMatchAt] at h
  cases hpre : ciDropPrefix pre cs with
  | none => rw [hpre] at h; simp at h
  | some rest1 =>
    rw [hpre] at h
    have hmem := firstSome_mem h
    simp only [List.mem_cons, List.not_mem_nil, or_false] at hmem
    rcases hmem with h3 | h2 | h1
    · exact sampleTryLen_le suf ivs rest1 3 (by omega) n h3.symm
    · exact sampleTryLen_le suf ivs rest1 2 (by omega) n h2.symm
    · exact sampleTryLen_le suf ivs rest1 1 (by omega) n h1.symm

theorem sample_extract_le (pre suf : List Char) (ivs : Bool) (name : String) (n : Nat)
    (h : sample_extract pre suf ivs name = some n) : n ≤ 999 :=
  scanFirst_le _ (sampleMatchAt_le pre suf ivs) _ _ h

theorem natDigitsAux_length :
    ∀ (fuel n k : Nat), n < fuel → n < 10 ^ (k + 1) → (natDigitsAux fuel n).length ≤ k + 1 := by
  intro fuel
  induction fuel with
  | zero => intro n k hfuel _; omega
  | succ f ih =>
    intro n k hfuel hlt
    simp only [natDigitsAux]
    by_cases h10 : n < 10
    · rw [if_pos h10]; simp
    · rw [if_neg h10]
      cases k with
      | zero =>
        have hp1 : (10 : Nat) ^ (0 + 1) = 10 := by norm_num
        omega
      | succ m =>
        have hpow : (10 : Nat) ^ (m + 1 + 1) = 10 ^ (m + 1) * 10 := by ring
        rw [hpow] at hlt
        have hdiv : n / 10 < 10 ^ (m + 1) := by omega
        have hf : n / 10 < f := by omega
        have := ih (n / 10) m hf hdiv
        simp only [List.length_append, List.length_cons, List.length_nil]
        omega

theorem natDigits_length_lt1000 {n : Nat} (h : n < 1000) : (natDigits n).length ≤ 3 := by
  have h3 : (10 : Nat) ^ (2 + 1) = 1000 := by norm_num
  exact natDigitsAux_length (n + 1) n 2 (by omega) (by omega)

theorem pad2_length_le {n : Nat} (h : n ≤ 999) : (pad2 n).length ≤ 3 := by
  simp only [pad2]
  by_cases h1 : n < 10
  · rw [if_pos h1]
    show ('0' :: natDigits n).length ≤ 3
    have h1p : (10 : Nat) ^ (0 + 1) = 10 := by norm_num
    have hlen := natDigitsAux_length (n + 1) n 0 (by omega) (by omega)
    show ('0' :: natDigitsAux (n + 1) n).length ≤ 3
    simp only [List.length_cons]
    omega
  · rw [if_neg h1]
    show (natDigits n).length ≤ 3
    exact natDigits_length_lt1000 (by omega)

/-- C10: whenever any matcher — the heuristic chain, mode A, mode B, or a
constructed mode-F matcher — returns an episode number, that number is at
most 999 (every digit capture of the source's patterns takes at most three
digits), and consequently the `E` field `episode:02d` of a destination name
has at most three characters. -/
theorem c10_episode_range :
    (∀ (name : String) (n : Nat), parse_episode_from_filename name = some n → n ≤ 999) ∧
      (∀ (i : Int) (ivs : Bool) (name : String) (n : Nat),
        extract_by_nth_number i ivs name = some n → n ≤ 999) ∧
      (∀ (o c : String) (bi : Int) (ivs : Bool) (name : String) (n : Nat),
        extract_in_nth_bracket o c bi ivs name = some n → n ≤ 999) ∧
      (∀ (pre suf : List Char) (ivs : Bool) (name : String) (n : Nat),
        sample_extract pre suf ivs name = some n → n ≤ 999) ∧
      (∀ n : Nat, n ≤ 999 → (pad2 n).length ≤ 3) :=
  ⟨parse_episode_from_filename_le, extract_by_nth_number_le, extract_in_nth_bracket_le,
    sample_extract_le, fun _ h => pad2_length_le h⟩

/-- C10 witness: the range bound instantiated at concrete extractions. -/
theorem c10_episode_range_witness :
    7 ≤ 999 ∧ 5 ≤ 999 ∧ 22 ≤ 999 ∧ 12 ≤ 999 ∧ (pad2 123).length ≤ 3 :=
  ⟨c10_episode_range.1 "a7.mkv" 7 (by decide),
    c10_episode_range.2.1 1 true "x 05.mkv" 5 (by decide),
    c10_episode_range.2.2.1 "[" "]" 2 true "[ABC] [22] T.mkv" 22 (by decide),
    c10_episode_range.2.2.2.1 ['['] (']' :: " Title".data) true "[12] Title.mkv" 12 (by decide),
    c10_episode_range.2.2.2.2 123 (by omega)⟩

/-! ## C1: the run aborts on any unresolved file, configured or not -/

/-- C1: contrary to the claim (and to the source's own module docstring and
the comment above the `missing` accumulator), the run ends in failure
whenever *any* file is unresolved: the computed `fail_fast` flag is never
consulted, and the final `if missing:` raise fires for heuristic-fallback
series and for series configured with `on_miss = "skip"` alike.  Both trees
below end in the aggregated error instead of a successful `(0, 1)` outcome. -/
theorem c1_any_miss_aborts :
    organize false c1TreeHeuristic
        = (.error (.missing ["Show/Season 01/opening.mkv"]), c1TreeHeuristic) ∧
      organize false c1TreeSkip
        = (.error (.missing ["Show/Season 01/opening.mkv"]), c1TreeSkip) :=
  ⟨rfl, rfl⟩

/-! ## C4: existing destinations are never overwritten -/

theorem renameSubEntry_length (n d : String) (sub : List SubEntry) :
    (renameSubEntry n d sub).length = sub.length := by
  induction sub with
  | nil => rfl
  | cons e rest ih =>
    simp only [renameSubEntry]
    split <;> simp [ih]

theorem mem_subNames_renameSubEntry {x n d : String} {sub : List SubEntry}
    (h : x ∈ subNames (renameSubEntry n d sub)) : x ∈ subNames sub ∨ x = d := by
  induction sub with
  | nil => simp [renameSubEntry, subNames] at h
  | cons e rest ih =>
    simp only [renameSubEntry] at h
    split at h
    · simp only [subNames, List.map_cons, List.mem_cons] at h
      rcases h with h | h
      · exact Or.inr h
      · exact Or.inl (by simp [subNames, h])
    · simp only [subNames, List.map_cons, List.mem_cons] at h
      rcases h with h | h
      · exact Or.inl (by simp [subNames, h])
      · rcases ih h with h' | h'
        · exact Or.inl (by simp [subNames] at h' ⊢; exact Or.inr h')
        · exact Or.inr h'

theorem renameSubEntry_nodup {n d : String} {sub : List SubEntry}
    (hnodup : (subNames sub).Nodup)
    (hfree : sub.any (fun e => e.name == d) = false) :
    (subNames (renameSubEntry n d sub)).Nodup := by
  induction sub with
  | nil => simp [renameSubEntry, subNames]
  | cons e rest ih =>
    simp only [List.any_cons, Bool.or_eq_false_iff, beq_eq_false_iff_ne] at hfree
    obtain ⟨hne, hfree'⟩ := hfree
    simp only [subNames, List.map_cons, List.nodup_cons] at hnodup
    obtain ⟨hnm, hnd⟩ := hnodup
    have hrest : ∀ x ∈ rest, ¬ x.name = d := by
      intro x hx hxd
      rw [List.any_eq_false] at hfree'
      exact hfree' x hx (beq_iff_eq.mpr hxd)
    simp only [renameSubEntry]
    split
    · simp only [subNames, List.map_cons, List.nodup_cons]
      refine ⟨fun hmem => ?_, hnd⟩
      rcases List.mem_map.mp hmem with ⟨x, hx, hxd⟩
      exact hrest x hx hxd
    · simp only [subNames, List.map_cons, List.nodup_cons]
      have hfree2 : rest.any (fun e => e.name == d) = false := by
        rw [List.any_eq_false]
        intro x hx hxd
        exact hrest x hx (beq_iff_eq.mp hxd)
      refine ⟨fun hmem => ?_, ih hnd hfree2⟩
      rcases mem_subNames_renameSubEntry hmem with h' | h'
      · exact hnm (by simpa [subNames] using h')
      · exact hne h'

/-- C4: (i) a file whose computed destination already exists (and differs
from the source) is skipped — the season contents and the renamed counter are
untouched, only the scanned total grows; (ii) processing a season never
changes the number of entries and keeps directory names duplicate-free, so an
existing file is never overwritten; (iii) concretely, of two files resolving
to episode 3 the first in sorted order is renamed and the second is skipped
with the "exists" outcome. -/
theorem c4_never_overwrite :
    (∀ (dryRun : Bool) (ex : String → Option Nat) (sn sd : String) (num : Nat)
      (name : String) (rest : List String) (sub : List SubEntry) (st : OrgSt) (ep : Nat),
      is_target_file name = true →
      ex name = some ep →
      ¬ name = build_target_name sn num ep (splitext_ext name) →
      sub.any (fun e => e.name == build_target_name sn num ep (splitext_ext name)) = true →
      processFiles dryRun ex sn sd num (name :: rest) sub st
        = processFiles dryRun ex sn sd num rest sub { st with total := st.total + 1 }) ∧
      (∀ (dryRun : Bool) (ex : String → Option Nat) (sn sd : String) (num : Nat)
        (snap : List String) (sub : List SubEntry) (st : OrgSt),
        (subNames sub).Nodup →
        (subNames (processFiles dryRun ex sn sd num snap sub st).1).Nodup ∧
          (processFiles dryRun ex sn sd num snap sub st).1.length = sub.length) ∧
      organize false c4Tree = (.ok (1, 2), c4TreeAfter) := by
  refine ⟨?_, ?_, rfl⟩
  · intro dryRun ex sn sd num name rest sub st ep ht hex hneq hexists
    simp only [processFiles, ht, if_true, hex]
    rw [if_neg hneq, if_pos hexists]
  · intro dryRun ex sn sd num snap
    induction snap with
    | nil => intro sub st h; exact ⟨h, rfl⟩
    | cons name rest ih =>
      intro sub st h
      simp only [processFiles]
      split
      · split
        · exact ih sub _ h
        · split
          · exact ih sub _ h
          · split
            · exact ih sub _ h
            · split
              · exact ih sub _ h
              · rename_i ep hepeq hneq hfree hdry
                have hfree' : sub.any
                    (fun e => e.name == build_target_name sn num ep (splitext_ext name))
                    = false := by
                  revert hfree
                  cases sub.any
                    (fun e => e.name == build_target_name sn num ep (splitext_ext name)) <;>
                    simp
                have h1 := @renameSubEntry_nodup name
                  (build_target_name sn num ep (splitext_ext name)) sub h hfree'
                refine ⟨(ih _ _ h1).1, ?_⟩
                rw [(ih _ _ h1).2, renameSubEntry_length]
      · exact ih sub _ h

/-- C4 witness: the step facts instantiated at the collision instance. -/
theorem c4_never_overwrite_witness :
    processFiles false parse_episode_from_filename "S" "Season 01" 1 ["b3.mkv"]
        [⟨"S S01E03.mkv", false⟩, ⟨"b3.mkv", false⟩] ⟨1, 1, []⟩
      = processFiles false parse_episode_from_filename "S" "Season 01" 1 []
        [⟨"S S01E03.mkv", false⟩, ⟨"b3.mkv", false⟩] ⟨1, 2, []⟩ ∧
      (subNames (processFiles false parse_episode_from_filename "S" "Season 01" 1
        ["a3x.mkv", "b3.mkv"] [⟨"a3x.mkv", false⟩, ⟨"b3.mkv", false⟩] ⟨0, 0, []⟩).1).Nodup := by
  constructor
  · exact c4_never_overwrite.1 false parse_episode_from_filename "S" "Season 01" 1
      "b3.mkv" [] [⟨"S S01E03.mkv", false⟩, ⟨"b3.mkv", false⟩] ⟨1, 1, []⟩ 3
      (by decide) (by decide) (by decide) (by decide)
  · exact (c4_never_overwrite.2.1 false parse_episode_from_filename "S" "Season 01" 1
      ["a3x.mkv", "b3.mkv"] [⟨"a3x.mkv", false⟩, ⟨"b3.mkv", false⟩] ⟨0, 0, []⟩
      (by decide)).1

/-! ## C5: simulation mode performs no filesystem mutation -/

theorem replaceSEntry_self {d : String} {se : SEntry} {entries : List SEntry}
    (h : entries.find? (fun e => e.name == d) = some se) :
    replaceSEntry d se entries = entries := by
  induction entries with
  | nil => simp at h
  | cons e rest ih =>
    simp only [replaceSEntry]
    by_cases he : (e.name == d) = true
    · rw [if_pos he]
      simp only [List.find?_cons, he] at h
      simp only [Option.some.injEq] at h
      rw [h]
    · have he' : (e.name == d) = false := by revert he; cases e.name == d <;> simp
      rw [if_neg he]
      simp only [List.find?_cons, he'] at h
      rw [ih h]

theorem replaceREntry_self {d : String} {re : REntry} {root : List REntry}
    (h : root.find? (fun e => e.name == d) = some re) :
    replaceREntry d re root = root := by
  induction root with
  | nil => simp at h
  | cons e rest ih =>
    simp only [replaceREntry]
    by_cases he : (e.name == d) = true
    · rw [if_pos he]
      simp only [List.find?_cons, he] at h
      simp only [Option.some.injEq] at h
      rw [h]
    · have he' : (e.name == d) = false := by revert he; cases e.name == d <;> simp
      rw [if_neg he]
      simp only [List.find?_cons, he'] at h
      rw [ih h]

theorem processFiles_dry (ex : String → Option Nat) (sn sd : String) (num : Nat) :
    ∀ (snap : List String) (sub : List SubEntry) (st : OrgSt),
      (processFiles true ex sn sd num snap sub st).1 = sub := by
  intro snap
  induction snap with
  | nil => intro sub st; rfl
  | cons name rest ih =>
    intro sub st
    simp only [processFiles]
    split
    · split
      · exact ih sub _
      · split
        · exact ih sub _
        · split
          · exact ih sub _
          · split
            · exact ih sub _
            · rename_i hdry
              first
              | exact absurd rfl hdry
              | exact absurd trivial hdry
    · exact ih sub _

theorem processSeasons_dry (ex : String → Option Nat) (sn : String) :
    ∀ (ds : List String) (entries : List SEntry) (st : OrgSt),
      (processSeasons true ex sn ds entries st).1 = entries := by
  intro ds
  induction ds with
  | nil => intro entries st; rfl
  | cons d rest ih =>
    intro entries st
    simp only [processSeasons]
    split
    · exact ih entries st
    · rename_i se hfind
      split
      · split
        · exact ih entries st
        · rw [processFiles_dry]
          have heta : ({ se with sub := se.sub } : SEntry) = se := rfl
          rw [heta, replaceSEntry_self hfind]
          exact ih entries _
      · exact ih entries st

theorem processSeries_dry (re : REntry) (st : OrgSt) :
    (processSeries true re st).2.1 = re := by
  simp only [processSeries]
  split
  · rfl
  · split
    · split
      · split
        · rfl
        · rename_i hdry
          first
          | exact absurd rfl hdry
          | exact absurd trivial hdry
      · rfl
    · show ({ re with entries := (processSeasons true _ re.name _ re.entries st).1 } : REntry)
        = re
      rw [processSeasons_dry]

theorem organizeGo_dry :
    ∀ (names : List String) (root : List REntry) (st : OrgSt),
      (organizeGo true names root st).2.1 = root := by
  intro names
  induction names with
  | nil => intro root st; rfl
  | cons n rest ih =>
    intro root st
    simp only [organizeGo]
    split
    · exact ih root st
    · rename_i re hfind
      split
      · split
        · rename_i err re2 st2 hps
          have hre : re2 = re := by
            have h0 := processSeries_dry re st
            rw [hps] at h0
            exact h0
          show replaceREntry n re2 root = root
          rw [hre, replaceREntry_self hfind]
        · rename_i re2 st2 hps
          have hre : re2 = re := by
            have h0 := processSeries_dry re st
            rw [hps] at h0
            exact h0
          show (organizeGo true rest (replaceREntry n re2 root) st2).2.1 = root
          rw [hre, replaceREntry_self hfind]
          exact ih root st2
      · exact ih root st

/-- C5: in simulation mode `organize` performs no mutation at all — the tree
after a dry run is the tree before (no directory creation, no normalization
move, no rename) — while an intended rename (resolved episode, source not
already canonical, destination free) still increments the returned `renamed`
counter exactly as a live run would. -/
theorem c5_dry_run_pure :
    (∀ root : List REntry, (organize true root).2 = root) ∧
      (∀ (ex : String → Option Nat) (sn sd : String) (num : Nat) (name : String)
        (rest : List String) (sub : List SubEntry) (st : OrgSt) (ep : Nat),
        is_target_file name = true →
        ex name = some ep →
        ¬ name = build_target_name sn num ep (splitext_ext name) →
        sub.any (fun e => e.name == build_target_name sn num ep (splitext_ext name)) = false →
        processFiles true ex sn sd num (name :: rest) sub st
          = processFiles true ex sn sd num rest sub
            { st with renamed := st.renamed + 1, total := st.total + 1 }) := by
  constructor
  · intro root
    simp only [organize]
    cases hgo : organizeGo true (sortStrings (root.map (fun e => e.name))) root ⟨0, 0, []⟩ with
    | mk err rest2 =>
      cases rest2 with
      | mk root' st =>
        have hroot : root' = root := by
          have := organizeGo_dry (sortStrings (root.map (fun e => e.name))) root ⟨0, 0, []⟩
          rw [hgo] at this
          exact this
        cases err with
        | none =>
          dsimp only
          by_cases hm : st.missing.isEmpty = true
          · rw [if_pos hm]; exact hroot
          · rw [if_neg hm]; exact hroot
        | some e => exact hroot
  · intro ex sn sd num name rest sub st ep ht hex hneq hfree
    simp only [processFiles, ht, if_true, hex]
    rw [if_neg hneq, if_neg (by rw [hfree]; exact Bool.false_ne_true)]

/-- C5 witness: the no-mutation fact at a concrete tree, and the dry-run
counting step at a concrete file. -/
theorem c5_dry_run_pure_witness :
    (organize true c4Tree).2 = c4Tree ∧
      processFiles true parse_episode_from_filename "S" "Season 01" 1 ["a3x.mkv"]
          [⟨"a3x.mkv", false⟩] ⟨0, 0, []⟩
        = processFiles true parse_episode_from_filename "S" "Season 01" 1 []
          [⟨"a3x.mkv", false⟩] ⟨1, 1, []⟩ :=
  ⟨c5_dry_run_pure.1 c4Tree,
    c5_dry_run_pure.2 parse_episode_from_filename "S" "Season 01" 1 "a3x.mkv" []
      [⟨"a3x.mkv", false⟩] ⟨0, 0, []⟩ 3 (by decide) (by decide) (by decide) (by decide)⟩

/-! ## C6: idempotence of a second run -/

/-- C6 counterexample: organize is *not* idempotent for every tree on which
the first run completes.  For a mode-A series (`number_index = 1`), the file
`"x 05.mkv"` is renamed to `"Show S01E05.mkv"` on the first run; on the
second run the first digit group of that canonical name is the season's `01`,
so the file re-extracts to episode 1, resolves to a different destination and
is renamed again: the second run reports one rename, not zero. -/
theorem c6_counterexample :
    (organize false c6Tree).1 = .ok (1, 1) ∧
      (organize false ((organize false c6Tree).2)).1 = .ok (1, 1) ∧
      ¬ (organize false ((organize false c6Tree).2)).1 = .ok (0, 1) :=
  ⟨rfl, rfl, by decide⟩

/-! ### Utilities for the amended idempotence statement -/

theorem namesNodupB_iff : ∀ l : List String, namesNodupB l = true ↔ l.Nodup := by
  intro l
  induction l with
  | nil => simp [namesNodupB]
  | cons n rest ih =>
    simp only [namesNodupB, Bool.and_eq_true, Bool.not_eq_true', List.nodup_cons]
    rw [ih]
    constructor
    · rintro ⟨h1, h2⟩
      refine ⟨fun hmem => ?_, h2⟩
      rw [List.any_eq_false] at h1
      exact h1 n hmem (beq_iff_eq.mpr (rfl : n = n))
    · rintro ⟨h1, h2⟩
      refine ⟨?_, h2⟩
      rw [List.any_eq_false]
      intro m hm hbeq
      exact h1 (beq_iff_eq.mp hbeq ▸ hm)

theorem insertSorted_perm (x : String) : ∀ l : List String, (insertSorted x l).Perm (x :: l) := by
  intro l
  induction l with
  | nil => simp [insertSorted]
  | cons y ys ih =>
    simp only [insertSorted]
    split
    · exact List.Perm.refl _
    · exact (List.Perm.cons y ih).trans (List.Perm.swap x y ys)

theorem sortStrings_perm : ∀ l : List String, (sortStrings l).Perm l := by
  intro l
  induction l with
  | nil => exact List.Perm.refl _
  | cons n rest ih =>
    show (insertSorted n (sortStrings rest)).Perm (n :: rest)
    exact (insertSorted_perm n (sortStrings rest)).trans (List.Perm.cons n ih)

theorem mem_sortStrings {x : String} {l : List String} : x ∈ sortStrings l ↔ x ∈ l :=
  (sortStrings_perm l).mem_iff

theorem sortStrings_nodup {l : List String} (h : l.Nodup) : (sortStrings l).Nodup :=
  ((sortStrings_perm l).nodup_iff).mpr h

theorem any_name_eq_iff {sub : List SubEntry} {d : String} :
    (sub.any (fun e => e.name == d)) = true ↔ ∃ e ∈ sub, e.name = d := by
  rw [List.any_eq_true]
  constructor
  · rintro ⟨e, he, hbeq⟩; exact ⟨e, he, beq_iff_eq.mp hbeq⟩
  · rintro ⟨e, he, heq⟩; exact ⟨e, he, beq_iff_eq.mpr heq⟩

theorem mem_subNames_iff {x : String} {sub : List SubEntry} :
    x ∈ subNames sub ↔ ∃ e ∈ sub, e.name = x := by
  simp [subNames, List.mem_map]

theorem mem_renameSubEntry {n d : String} {sub : List SubEntry} {e' : SubEntry}
    (h : e' ∈ renameSubEntry n d sub) :
    (∃ e ∈ sub, e.name = n ∧ e' = { e with name := d }) ∨ (e' ∈ sub ∧ ¬ e'.name = n) ∨ e' ∈ sub := by
  induction sub with
  | nil => simp [renameSubEntry] at h
  | cons e rest ih =>
    simp only [renameSubEntry] at h
    split at h
    · rename_i hbeq
      rcases List.mem_cons.mp h with h1 | h1
      · exact Or.inl ⟨e, List.mem_cons_self e rest, beq_iff_eq.mp hbeq, h1⟩
      · exact Or.inr (Or.inr (List.mem_cons_of_mem e h1))
    · rcases List.mem_cons.mp h with h1 | h1
      · exact Or.inr (Or.inr (h1 ▸ List.mem_cons_self e rest))
      · rcases ih h1 with h2 | h2 | h2
        · rcases h2 with ⟨e0, he0, hn, he'⟩
          exact Or.inl ⟨e0, List.mem_cons_of_mem e he0, hn, he'⟩
        · exact Or.inr (Or.inl ⟨List.mem_cons_of_mem e h2.1, h2.2⟩)
        · exact Or.inr (Or.inr (List.mem_cons_of_mem e h2))

theorem mem_renameSubEntry_precise {n d : String} {sub : List SubEntry} {e' : SubEntry}
    (hnodup : (subNames sub).Nodup)
    (h : e' ∈ renameSubEntry n d sub) :
    (∃ e ∈ sub, e.name = n ∧ e' = { e with name := d }) ∨ (e' ∈ sub ∧ ¬ e'.name = n) := by
  induction sub with
  | nil => simp [renameSubEntry] at h
  | cons e rest ih =>
    simp only [subNames, List.map_cons, List.nodup_cons] at hnodup
    obtain ⟨hnm, hnd⟩ := hnodup
    simp only [renameSubEntry] at h
    split at h
    · rename_i hbeq
      have hen : e.name = n := beq_iff_eq.mp hbeq
      rcases List.mem_cons.mp h with h1 | h1
      · exact Or.inl ⟨e, List.mem_cons_self e rest, hen, h1⟩
      · refine Or.inr ⟨List.mem_cons_of_mem e h1, fun hmm => ?_⟩
        have hmem2 : e'.name ∈ List.map (fun x => x.name) rest :=
          List.mem_map_of_mem (fun x => x.name) h1
        rw [hmm, ← hen] at hmem2
        exact hnm hmem2
    · rename_i hbeq
      have hen : ¬ e.name = n := by simpa using hbeq
      rcases List.mem_cons.mp h with h1 | h1
      · exact Or.inr ⟨h1 ▸ List.mem_cons_self e rest, h1 ▸ hen⟩
      · rcases ih hnd h1 with h2 | h2
        · rcases h2 with ⟨e0, he0, hn, he'⟩
          exact Or.inl ⟨e0, List.mem_cons_of_mem e he0, hn, he'⟩
        · exact Or.inr ⟨List.mem_cons_of_mem e h2.1, h2.2⟩

theorem mem_renameSubEntry_of_mem {n d : String} {sub : List SubEntry} {e : SubEntry}
    (he : e ∈ sub) (hne : ¬ e.name = n) : e ∈ renameSubEntry n d sub := by
  induction sub with
  | nil => simp at he
  | cons e0 rest ih =>
    simp only [renameSubEntry]
    split
    · rename_i hbeq
      rcases List.mem_cons.mp he with h1 | h1
      · exact absurd (h1 ▸ beq_iff_eq.mp hbeq) hne
      · exact List.mem_cons_of_mem _ h1
    · rcases List.mem_cons.mp he with h1 | h1
      · exact h1 ▸ List.mem_cons_self _ _
      · exact List.mem_cons_of_mem _ (ih h1)

theorem renamed_mem_renameSubEntry {n d : String} {sub : List SubEntry} {e : SubEntry}
    (hnodup : (subNames sub).Nodup) (he : e ∈ sub) (hen : e.name = n) :
    ({ e with name := d } : SubEntry) ∈ renameSubEntry n d sub := by
  induction sub with
  | nil => simp at he
  | cons e0 rest ih =>
    simp only [subNames, List.map_cons, List.nodup_cons] at hnodup
    obtain ⟨hnm, hnd⟩ := hnodup
    simp only [renameSubEntry]
    split
    · rename_i hbeq
      rcases List.mem_cons.mp he with h1 | h1
      · exact h1 ▸ List.mem_cons_self _ _
      · exfalso
        have hmem2 : e.name ∈ List.map (fun x => x.name) rest :=
          List.mem_map_of_mem (fun x => x.name) h1
        rw [hen, ← beq_iff_eq.mp hbeq] at hmem2
        exact hnm hmem2
    · rename_i hbeq
      rcases List.mem_cons.mp he with h1 | h1
      · exfalso
        have he0n : e0.name = n := by rw [← h1]; exact hen
        exact hbeq (beq_iff_eq.mpr he0n)
      · exact List.mem_cons_of_mem _ (ih hnd h1)

theorem seasonGoodB_nodup {ex : String → Option Nat} {sn : String} {num : Nat}
    {sub : List SubEntry} (h : seasonGoodB ex sn num sub = true) :
    namesNodupB (subNames sub) = true := by
  simp only [seasonGoodB, Bool.and_eq_true] at h
  exact h.1

theorem seasonGoodB_target {ex : String → Option Nat} {sn : String} {num : Nat}
    {sub : List SubEntry} {e : SubEntry} (h : seasonGoodB ex sn num sub = true)
    (he : e ∈ sub) (ht : is_target_file e.name = true) :
    ∃ ep, ex e.name = some ep ∧
      ex (build_target_name sn num ep (splitext_ext e.name)) = some ep ∧
      splitext_ext (build_target_name sn num ep (splitext_ext e.name)) = splitext_ext e.name ∧
      (build_target_name sn num ep (splitext_ext e.name) = e.name ∨
        ∀ e2 ∈ sub, ¬ e2.name = e.name → is_target_file e2.name = true →
          ∀ ep2, ex e2.name = some ep2 →
            ¬ build_target_name sn num ep2 (splitext_ext e2.name)
              = build_target_name sn num ep (splitext_ext e.name)) := by
  simp only [seasonGoodB, Bool.and_eq_true, List.all_eq_true] at h
  have hge := h.2 e he
  simp only [entryGoodB, ht, Bool.not_true, Bool.false_or] at hge
  cases hex : ex e.name with
  | none => rw [hex] at hge; simp at hge
  | some ep =>
    rw [hex] at hge
    dsimp only at hge
    simp only [Bool.and_eq_true, Bool.or_eq_true, beq_iff_eq, List.all_eq_true] at hge
    obtain ⟨⟨hre, hsp⟩, hlast⟩ := hge
    refine ⟨ep, rfl, hre, hsp, ?_⟩
    rcases hlast with hcn | hall
    · exact Or.inl hcn
    · refine Or.inr (fun e2 he2 hne2 ht2 ep2 hex2 hdst => ?_)
      have htail := hall e2 he2
      rw [hex2] at htail
      simp only [Bool.or_eq_true, beq_iff_eq, Bool.not_eq_true', beq_eq_false_iff_ne,
        ne_eq] at htail
      rcases htail with (h1 | h1) | h1
      · exact hne2 h1
      · rw [ht2] at h1; exact Bool.noConfusion h1
      · exact h1 hdst

/-- The extractor also resolves an entry whose name *is* some good target's
canonical destination, and that entry never moves: its own destination is
itself. -/
theorem occupier_stays {ex : String → Option Nat} {sn : String} {num : Nat}
    {e o : SubEntry} {ep : Nat}
    (hre : ex (build_target_name sn num ep (splitext_ext e.name)) = some ep)
    (hsp : splitext_ext (build_target_name sn num ep (splitext_ext e.name))
      = splitext_ext e.name)
    (hon : o.name = build_target_name sn num ep (splitext_ext e.name)) :
    is_target_file o.name = false ∨
      ∃ epo, ex o.name = some epo ∧
        build_target_name sn num epo (splitext_ext o.name) = o.name := by
  by_cases hto : is_target_file o.name = true
  · refine Or.inr ⟨ep, ?_, ?_⟩
    · rw [hon]; exact hre
    · rw [hon, hsp]
  · refine Or.inl ?_
    cases hcase : is_target_file o.name
    · rfl
    · exact absurd hcase hto

/-! ### Second-run fixpoint lemmas -/

theorem processFiles_fixpoint (ex : String → Option Nat) (sn sd : String) (num : Nat) :
    ∀ (snap : List String) (sub : List SubEntry) (st : OrgSt),
      (∀ n ∈ snap, n ∈ subNames sub) →
      seasonPost ex sn num sub →
      (processFiles false ex sn sd num snap sub st).1 = sub ∧
        (processFiles false ex sn sd num snap sub st).2.renamed = st.renamed ∧
        (processFiles false ex sn sd num snap sub st).2.missing = st.missing := by
  intro snap
  induction snap with
  | nil => intro sub st _ _; exact ⟨rfl, rfl, rfl⟩
  | cons n rest ih =>
    intro sub st hsnap hpost
    have hrest : ∀ m ∈ rest, m ∈ subNames sub := fun m hm => hsnap m (List.mem_cons_of_mem n hm)
    simp only [processFiles]
    by_cases ht : is_target_file n = true
    · rw [if_pos ht]
      obtain ⟨e, he, hen⟩ := mem_subNames_iff.mp (hsnap n (List.mem_cons_self n rest))
      subst hen
      obtain ⟨ep, hep, hcase⟩ := hpost e he ht
      rw [hep]
      dsimp only
      by_cases hdn : e.name = build_target_name sn num ep (splitext_ext e.name)
      · rw [if_pos hdn]
        exact ih sub _ hrest hpost
      · rw [if_neg hdn]
        have hany : (sub.any (fun e2 =>
            e2.name == build_target_name sn num ep (splitext_ext e.name))) = true := by
          rcases hcase with h1 | h1
          · exact absurd h1.symm hdn
          · exact h1
        rw [if_pos hany]
        exact ih sub _ hrest hpost
    · rw [if_neg ht]
      exact ih sub _ hrest hpost

theorem processSeasons_fixpoint (ex : String → Option Nat) (sn : String) :
    ∀ (ds : List String) (entries : List SEntry) (st : OrgSt),
      (∀ se ∈ entries, ∀ num : Nat, se.isDir = true →
        parse_season_from_dirname se.name = some num → seasonPost ex sn num se.sub) →
      (processSeasons false ex sn ds entries st).1 = entries ∧
        (processSeasons false ex sn ds entries st).2.renamed = st.renamed ∧
        (processSeasons false ex sn ds entries st).2.missing = st.missing := by
  intro ds
  induction ds with
  | nil => intro entries st _; exact ⟨rfl, rfl, rfl⟩
  | cons d rest ih =>
    intro entries st hpost
    simp only [processSeasons]
    split
    · exact ih entries st hpost
    · rename_i se hfind
      have hse : se ∈ entries := List.mem_of_find?_eq_some hfind
      split
      · rename_i hdir
        split
        · exact ih entries st hpost
        · rename_i num hparse
          have hname : se.name = d := by
            have := List.find?_some hfind
            exact beq_iff_eq.mp this
          have hp := hpost se hse num hdir (hname ▸ hparse)
          have hsnap : ∀ m ∈ sortStrings (se.sub.map (fun e => e.name)), m ∈ subNames se.sub :=
            fun m hm => mem_sortStrings.mp hm
          have hf := processFiles_fixpoint ex sn d num
            (sortStrings (se.sub.map (fun e => e.name))) se.sub st hsnap hp
          rw [hf.1]
          have heta : ({ se with sub := se.sub } : SEntry) = se := rfl
          rw [heta, replaceSEntry_self hfind]
          have hr := ih entries
            (processFiles false ex sn d num
              (sortStrings (se.sub.map (fun e => e.name))) se.sub st).2 hpost
          exact ⟨hr.1, hr.2.1.trans hf.2.1, hr.2.2.trans hf.2.2⟩
      · exact ih entries st hpost

theorem processSeries_fixpoint {re : REntry} (st : OrgSt) (h : SeriesPost re) :
    ∃ st', processSeries false re st = (none, re, st') ∧
      st'.renamed = st.renamed ∧ st'.missing = st.missing := by
  obtain ⟨⟨ex, ff⟩, hch, hnodup, hne, hseasons⟩ := h
  simp only [processSeries]
  rw [hch]
  dsimp only
  rw [hne]
  simp only [Bool.false_eq_true, if_false]
  have hpost : ∀ se ∈ re.entries, ∀ num : Nat, se.isDir = true →
      parse_season_from_dirname se.name = some num → seasonPost ex re.name num se.sub :=
    fun se hse num hdir hparse => (hseasons se hse num hdir hparse).2
  have hs := processSeasons_fixpoint ex re.name
    (List.filter (isSeasonDirOf re.entries)
      (sortStrings (re.entries.map (fun e => e.name)))) re.entries st hpost
  refine ⟨(processSeasons false ex re.name _ re.entries st).2, ?_, hs.2.1, hs.2.2⟩
  rw [hs.1]

theorem organizeGo_fixpoint :
    ∀ (ns : List String) (root : List REntry) (st : OrgSt),
      (∀ re ∈ root, re.isDir = true → SeriesPost re) →
      ∃ st', organizeGo false ns root st = (none, root, st') ∧
        st'.renamed = st.renamed ∧ st'.missing = st.missing := by
  intro ns
  induction ns with
  | nil => intro root st _; exact ⟨st, rfl, rfl, rfl⟩
  | cons n rest ih =>
    intro root st hpost
    simp only [organizeGo]
    split
    · exact ih root st hpost
    · rename_i re hfind
      have hre : re ∈ root := List.mem_of_find?_eq_some hfind
      by_cases hdir : re.isDir = true
      · rw [if_pos hdir]
        obtain ⟨st1, hps, hr1, hm1⟩ := processSeries_fixpoint st (hpost re hre hdir)
        rw [hps]
        dsimp only
        rw [replaceREntry_self hfind]
        obtain ⟨st2, hgo, hr2, hm2⟩ := ih root st1 hpost
        exact ⟨st2, hgo, hr2.trans hr1, hm2.trans hm1⟩
      · rw [if_neg hdir]
        exact ih root st hpost

theorem organize_fixpoint {root : List REntry} (h : RootPost root) :
    ∃ t, organize false root = (.ok (0, t), root) := by
  obtain ⟨st', hgo, hr, hm⟩ := organizeGo_fixpoint
    (sortStrings (root.map (fun e => e.name))) root ⟨0, 0, []⟩ h.2
  refine ⟨st'.total, ?_⟩
  simp only [organize]
  rw [hgo]
  dsimp only
  have hmE : st'.missing.isEmpty = true := by rw [hm]; rfl
  rw [hmE]
  simp only [if_true]
  rw [hr]

/-! ### First-run lemmas: one season -/

theorem boolFalse {x : Bool} (h : ¬ x = true) : x = false := by
  cases x
  · rfl
  · exact absurd rfl h

theorem entry_unique {sub : List SubEntry} (hnodup : namesNodupB (subNames sub) = true) :
    ∀ {a b : SubEntry}, a ∈ sub → b ∈ sub → a.name = b.name → a = b := by
  rw [namesNodupB_iff] at hnodup
  induction sub with
  | nil => intro a b ha _ _; simp at ha
  | cons e rest ih =>
    simp only [subNames, List.map_cons, List.nodup_cons] at hnodup
    obtain ⟨hnm, hnd⟩ := hnodup
    intro a b ha hb hab
    rcases List.mem_cons.mp ha with ha1 | ha1 <;> rcases List.mem_cons.mp hb with hb1 | hb1
    · rw [ha1, hb1]
    · exfalso
      apply hnm
      have hmm : b.name ∈ List.map (fun x => x.name) rest :=
        List.mem_map_of_mem (fun x => x.name) hb1
      rw [← hab, ha1] at hmm
      exact hmm
    · exfalso
      apply hnm
      have hmm : a.name ∈ List.map (fun x => x.name) rest :=
        List.mem_map_of_mem (fun x => x.name) ha1
      rw [hab, hb1] at hmm
      exact hmm
    · exact ih hnd ha1 hb1 hab

theorem runInv_step_skip {ex : String → Option Nat} {sn : String} {num : Nat}
    {sub0 : List SubEntry} {n : String} {rest : List String} {sub : List SubEntry}
    (hinv : runInv ex sn num sub0 (n :: rest) sub)
    (hn : ∀ e ∈ sub, e.name = n →
      staysEntry ex sn num e ∨ blockedEntry ex sn num sub0 e) :
    runInv ex sn num sub0 rest sub := by
  obtain ⟨h1, h2, h3, h4⟩ := hinv
  refine ⟨h1, fun m hm => h2 m (List.mem_cons_of_mem n hm), fun e he => ?_, h4⟩
  rcases h3 e he with ⟨horig, hc⟩ | hren
  · refine Or.inl ⟨horig, ?_⟩
    rcases hc with hsnap | hc
    · rcases List.mem_cons.mp hsnap with hen | hen
      · rcases hn e he hen with h | h
        · exact Or.inr (Or.inl h)
        · exact Or.inr (Or.inr h)
      · exact Or.inl hen
    · exact Or.inr hc
  · obtain ⟨e0, he0, ep, ht0, hex0, heq, hnotin⟩ := hren
    exact Or.inr ⟨e0, he0, ep, ht0, hex0, heq,
      fun hmem => hnotin (List.mem_cons_of_mem n hmem)⟩

theorem run1_go (ex : String → Option Nat) (sn sd : String) (num : Nat)
    (sub0 : List SubEntry) (hg : seasonGoodB ex sn num sub0 = true) :
    ∀ (snap : List String) (sub : List SubEntry) (st : OrgSt),
      snap.Nodup →
      runInv ex sn num sub0 snap sub →
      (processFiles false ex sn sd num snap sub st).2.missing = st.missing ∧
        runInv ex sn num sub0 [] (processFiles false ex sn sd num snap sub st).1 := by
  intro snap
  induction snap with
  | nil => intro sub st _ hinv; exact ⟨rfl, hinv⟩
  | cons n rest ih =>
    intro sub st hsnapnd hinv
    have hrestnd : rest.Nodup := (List.nodup_cons.mp hsnapnd).2
    have hnnotin : ¬ n ∈ rest := (List.nodup_cons.mp hsnapnd).1
    obtain ⟨e, he0, hes, hen⟩ := hinv.2.1 n (List.mem_cons_self n rest)
    subst hen
    simp only [processFiles]
    by_cases ht : is_target_file e.name = true
    · rw [if_pos ht]
      obtain ⟨ep, hep, hre, hsp, hdisj⟩ := seasonGoodB_target hg he0 ht
      rw [hep]
      dsimp only
      by_cases hdn : e.name = build_target_name sn num ep (splitext_ext e.name)
      · rw [if_pos hdn]
        refine ih sub _ hrestnd (runInv_step_skip hinv ?_)
        intro e' he' hname
        have he'e : e' = e := entry_unique hinv.1 he' hes hname
        exact Or.inl (Or.inr ⟨ep, he'e ▸ hep, by rw [he'e, ← hdn]⟩)
      · rw [if_neg hdn]
        by_cases hany : (sub.any (fun e2 =>
            e2.name == build_target_name sn num ep (splitext_ext e.name))) = true
        · rw [if_pos hany]
          refine ih sub _ hrestnd (runInv_step_skip hinv ?_)
          intro e' he' hname
          have he'e : e' = e := entry_unique hinv.1 he' hes hname
          subst he'e
          obtain ⟨o, ho, hoc⟩ := any_name_eq_iff.mp hany
          rcases hinv.2.2.1 o ho with ⟨ho0, _⟩ | hren
          · exact Or.inr ⟨ht, ep, hep, o, ho0, hoc, occupier_stays hre hsp hoc⟩
          · exfalso
            obtain ⟨o0, ho0, ep', ht0, hex0, hoeq, hnotin⟩ := hren
            have hone : ¬ o0.name = e'.name := fun hh => hnotin (hh ▸ List.mem_cons_self _ _)
            rcases hdisj with hcn | hinj
            · exact hdn hcn.symm
            · refine hinj o0 ho0 hone ht0 ep' hex0 ?_
              rw [← hoc, hoeq]
        · rw [if_neg hany]
          rw [if_neg (by simp : ¬ (false = true))]
          have hfree : (sub.any (fun e2 =>
              e2.name == build_target_name sn num ep (splitext_ext e.name))) = false :=
            boolFalse hany
          have hnodup' : (subNames sub).Nodup := (namesNodupB_iff _).mp hinv.1
          have hnodupB' : namesNodupB (subNames (renameSubEntry e.name
              (build_target_name sn num ep (splitext_ext e.name)) sub)) = true :=
            (namesNodupB_iff _).mpr (renameSubEntry_nodup hnodup' hfree)
          refine ih _ _ hrestnd ⟨hnodupB', ?_, ?_, ?_⟩
          · intro m hm
            obtain ⟨em, hem0, hems, hemn⟩ := hinv.2.1 m (List.mem_cons_of_mem _ hm)
            refine ⟨em, hem0, mem_renameSubEntry_of_mem hems ?_, hemn⟩
            rw [hemn]
            intro hme
            exact hnnotin (hme ▸ hm)
          · intro e' he'
            rcases mem_renameSubEntry_precise hnodup' he' with ⟨e1, he1, he1n, he'eq⟩ | ⟨he1, hne1⟩
            · have he1e : e1 = e := entry_unique hinv.1 he1 hes he1n
              subst he1e
              exact Or.inr ⟨e1, he0, ep, ht, hep, he'eq, hnnotin⟩
            · rcases hinv.2.2.1 e' he1 with ⟨horig, hc⟩ | hren
              · refine Or.inl ⟨horig, ?_⟩
                rcases hc with hsnap | hc
                · rcases List.mem_cons.mp hsnap with hh | hh
                  · exact absurd hh hne1
                  · exact Or.inl hh
                · exact Or.inr hc
              · obtain ⟨e0, he00, ep', ht0, hex0, heq, hnotin⟩ := hren
                exact Or.inr ⟨e0, he00, ep', ht0, hex0, heq,
                  fun hmem => hnotin (List.mem_cons_of_mem _ hmem)⟩
          · intro s hs0 hstays
            have hsin : s ∈ sub := hinv.2.2.2 s hs0 hstays
            refine mem_renameSubEntry_of_mem hsin ?_
            intro hsname
            have hse : s = e := entry_unique hinv.1 hsin hes hsname
            subst hse
            rcases hstays with hnt | ⟨ep', hex', hbuild⟩
            · rw [ht] at hnt; exact Bool.noConfusion hnt
            · rw [hep] at hex'
              have hepep : ep' = ep := by
                have := Option.some.inj hex'
                exact this.symm
              rw [hepep] at hbuild
              exact hdn hbuild.symm
    · rw [if_neg ht]
      refine ih sub _ hrestnd (runInv_step_skip hinv ?_)
      intro e' he' hname
      have he'e : e' = e := entry_unique hinv.1 he' hes hname
      exact Or.inl (Or.inl (by rw [he'e]; exact boolFalse ht))

theorem post_of_runInv {ex : String → Option Nat} {sn : String} {num : Nat}
    {sub0 sub1 : List SubEntry} (hg : seasonGoodB ex sn num sub0 = true)
    (hinv : runInv ex sn num sub0 [] sub1) :
    namesNodupB (subNames sub1) = true ∧ seasonPost ex sn num sub1 := by
  refine ⟨hinv.1, fun e he ht => ?_⟩
  rcases hinv.2.2.1 e he with ⟨horig, hc⟩ | hren
  · rcases hc with hsnap | hst | hbl
    · simp at hsnap
    · rcases hst with hnt | ⟨ep, hex, hbuild⟩
      · rw [ht] at hnt; exact Bool.noConfusion hnt
      · exact ⟨ep, hex, Or.inl hbuild⟩
    · obtain ⟨_, ep, hex, e2, he2, he2n, hstays⟩ := hbl
      refine ⟨ep, hex, Or.inr ?_⟩
      rw [any_name_eq_iff]
      exact ⟨e2, hinv.2.2.2 e2 he2 hstays, he2n⟩
  · obtain ⟨e0, he0, ep, ht0, hex0, heq, _⟩ := hren
    obtain ⟨ep', hep', hre, hsp, _⟩ := seasonGoodB_target hg he0 ht0
    have hee : ep' = ep := by
      rw [hex0] at hep'
      exact (Option.some.inj hep').symm
    subst hee
    have hename : e.name = build_target_name sn num ep' (splitext_ext e0.name) := by rw [heq]
    refine ⟨ep', ?_, Or.inl ?_⟩
    · rw [hename]; exact hre
    · rw [hename, hsp]

theorem processFiles_run1 (ex : String → Option Nat) (sn sd : String) (num : Nat)
    (sub0 : List SubEntry) (st : OrgSt) (hg : seasonGoodB ex sn num sub0 = true) :
    (processFiles false ex sn sd num
        (sortStrings (sub0.map (fun e => e.name))) sub0 st).2.missing = st.missing ∧
      namesNodupB (subNames (processFiles false ex sn sd num
        (sortStrings (sub0.map (fun e => e.name))) sub0 st).1) = true ∧
      seasonPost ex sn num (processFiles false ex sn sd num
        (sortStrings (sub0.map (fun e => e.name))) sub0 st).1 := by
  have hnodup0 : (subNames sub0).Nodup := (namesNodupB_iff _).mp (seasonGoodB_nodup hg)
  have hsnapnd : (sortStrings (sub0.map (fun e => e.name))).Nodup := sortStrings_nodup hnodup0
  have hinv0 : runInv ex sn num sub0 (sortStrings (sub0.map (fun e => e.name))) sub0 := by
    refine ⟨seasonGoodB_nodup hg, ?_, ?_, fun e he _ => he⟩
    · intro n hn
      obtain ⟨e, he, hen⟩ := mem_subNames_iff.mp (mem_sortStrings.mp hn)
      exact ⟨e, he, he, hen⟩
    · intro e he
      exact Or.inl ⟨he, Or.inl (mem_sortStrings.mpr (List.mem_map_of_mem (fun x => x.name) he))⟩
  obtain ⟨hm, hinv1⟩ := run1_go ex sn sd num sub0 hg _ sub0 st hsnapnd hinv0
  obtain ⟨hn1, hp1⟩ := post_of_runInv hg hinv1
  exact ⟨hm, hn1, hp1⟩

/-! ### Shape preservation between the two runs -/

theorem shape_names {a b : List SEntry} (h : entriesShape a = entriesShape b) :
    a.map (fun e => e.name) = b.map (fun e => e.name) := by
  have hk : ∀ l : List SEntry,
      l.map (fun e => e.name) = (entriesShape l).map (fun t => t.1) := by
    intro l
    simp [entriesShape, List.map_map]
  rw [hk a, hk b, h]

theorem shape_find? {a : List SEntry} :
    ∀ {b : List SEntry}, entriesShape a = entriesShape b → ∀ s : String,
      ((a.find? (fun e => e.name == s)).map (fun e => (e.isDir, e.cfg)))
        = ((b.find? (fun e => e.name == s)).map (fun e => (e.isDir, e.cfg))) := by
  induction a with
  | nil =>
    intro b h s
    cases b with
    | nil => rfl
    | cons f rest2 => simp [entriesShape] at h
  | cons e rest ih =>
    intro b h s
    cases b with
    | nil => simp [entriesShape] at h
    | cons f rest2 =>
      simp only [entriesShape, List.map_cons, List.cons.injEq] at h
      obtain ⟨hhead, htail⟩ := h
      obtain ⟨hn, hd, hc⟩ : e.name = f.name ∧ e.isDir = f.isDir ∧ e.cfg = f.cfg := by
        refine ⟨congrArg Prod.fst hhead, ?_, ?_⟩
        · exact congrArg (fun t => t.2.1) hhead
        · exact congrArg (fun t => t.2.2) hhead
      simp only [List.find?_cons]
      rw [hn]
      cases hbeq : f.name == s
      · exact ih htail s
      · simp only [Option.map_some']
        rw [hd, hc]

theorem shape_load_config {a b : List SEntry} (h : entriesShape a = entriesShape b) :
    load_config a = load_config b := by
  have hf := shape_find? h ".organizer.toml"
  simp only [load_config]
  cases ha : a.find? (fun e => e.name == ".organizer.toml") with
  | none =>
    cases hb : b.find? (fun e => e.name == ".organizer.toml") with
    | none => rfl
    | some f => rw [ha, hb] at hf; simp at hf
  | some e =>
    cases hb : b.find? (fun e => e.name == ".organizer.toml") with
    | none => rw [ha, hb] at hf; simp at hf
    | some f =>
      rw [ha, hb] at hf
      simp only [Option.map_some', Option.some.injEq, Prod.mk.injEq] at hf
      exact hf.2

theorem shape_isSeasonDirOf {a b : List SEntry} (h : entriesShape a = entriesShape b)
    (d : String) : isSeasonDirOf a d = isSeasonDirOf b d := by
  have hf := shape_find? h d
  simp only [isSeasonDirOf]
  cases ha : a.find? (fun e => e.name == d) with
  | none =>
    cases hb : b.find? (fun e => e.name == d) with
    | none => rfl
    | some f => rw [ha, hb] at hf; simp at hf
  | some e =>
    cases hb : b.find? (fun e => e.name == d) with
    | none => rw [ha, hb] at hf; simp at hf
    | some f =>
      rw [ha, hb] at hf
      simp only [Option.map_some', Option.some.injEq, Prod.mk.injEq] at hf
      dsimp only
      rw [hf.1]

theorem replaceSEntry_shape {d : String} {new se : SEntry} {entries : List SEntry}
    (hfind : entries.find? (fun e => e.name == d) = some se)
    (hn : new.name = se.name) (hd : new.isDir = se.isDir) (hc : new.cfg = se.cfg) :
    entriesShape (replaceSEntry d new entries) = entriesShape entries := by
  induction entries with
  | nil => simp at hfind
  | cons e rest ih =>
    simp only [replaceSEntry]
    by_cases he : (e.name == d) = true
    · rw [if_pos he]
      simp only [List.find?_cons, he] at hfind
      simp only [Option.some.injEq] at hfind
      simp only [entriesShape, List.map_cons]
      rw [hn, hd, hc, hfind]
    · have he' : (e.name == d) = false := boolFalse he
      rw [if_neg he]
      simp only [List.find?_cons, he'] at hfind
      have hih := ih hfind
      simp only [entriesShape, List.map_cons] at hih ⊢
      rw [hih]

theorem mem_replaceSEntry {d : String} {new : SEntry} {entries : List SEntry} {e' : SEntry}
    (hnodup : (entries.map (fun e => e.name)).Nodup)
    (h : e' ∈ replaceSEntry d new entries) :
    e' = new ∨ (e' ∈ entries ∧ ¬ e'.name = d) := by
  induction entries with
  | nil => simp [replaceSEntry] at h
  | cons e rest ih =>
    simp only [List.map_cons, List.nodup_cons] at hnodup
    obtain ⟨hnm, hnd⟩ := hnodup
    simp only [replaceSEntry] at h
    split at h
    · rename_i hbeq
      have hen : e.name = d := beq_iff_eq.mp hbeq
      rcases List.mem_cons.mp h with h1 | h1
      · exact Or.inl h1
      · refine Or.inr ⟨List.mem_cons_of_mem e h1, fun hmm => ?_⟩
        have hmem2 : e'.name ∈ List.map (fun x => x.name) rest :=
          List.mem_map_of_mem (fun x => x.name) h1
        rw [hmm, ← hen] at hmem2
        exact hnm hmem2
    · rename_i hbeq
      have hen : ¬ e.name = d := by
        intro hh; exact hbeq (beq_iff_eq.mpr hh)
      rcases List.mem_cons.mp h with h1 | h1
      · exact Or.inr ⟨h1 ▸ List.mem_cons_self e rest, h1 ▸ hen⟩
      · rcases ih hnd h1 with h2 | h2
        · exact Or.inl h2
        · exact Or.inr ⟨List.mem_cons_of_mem e h2.1, h2.2⟩

theorem name_unique {α : Type} (f : α → String) {l : List α} (hnodup : (l.map f).Nodup) :
    ∀ {a b : α}, a ∈ l → b ∈ l → f a = f b → a = b := by
  induction l with
  | nil => intro a b ha _ _; simp at ha
  | cons e rest ih =>
    simp only [List.map_cons, List.nodup_cons] at hnodup
    obtain ⟨hnm, hnd⟩ := hnodup
    intro a b ha hb hab
    rcases List.mem_cons.mp ha with ha1 | ha1 <;> rcases List.mem_cons.mp hb with hb1 | hb1
    · rw [ha1, hb1]
    · exfalso
      apply hnm
      have hmm : f b ∈ List.map f rest := List.mem_map_of_mem f hb1
      rw [← hab, ha1] at hmm
      exact hmm
    · exfalso
      apply hnm
      have hmm : f a ∈ List.map f rest := List.mem_map_of_mem f ha1
      rw [hab, hb1] at hmm
      exact hmm
    · exact ih hnd ha1 hb1 hab

theorem seentry_unique {entries : List SEntry}
    (hnodup : namesNodupB (entries.map (fun e => e.name)) = true) :
    ∀ {a b : SEntry}, a ∈ entries → b ∈ entries → a.name = b.name → a = b :=
  fun ha hb hab =>
    name_unique (fun e => e.name) ((namesNodupB_iff _).mp hnodup) ha hb hab

theorem processSeasons_run1 (ex : String → Option Nat) (sn : String) :
    ∀ (ds : List String) (entries : List SEntry) (st : OrgSt),
      ds.Nodup →
      (entries.map (fun e => e.name)).Nodup →
      entriesMixed ex sn ds entries →
      (processSeasons false ex sn ds entries st).2.missing = st.missing ∧
        entriesShape (processSeasons false ex sn ds entries st).1 = entriesShape entries ∧
        entriesMixed ex sn [] (processSeasons false ex sn ds entries st).1 := by
  intro ds
  induction ds with
  | nil =>
    intro entries st _ _ hmixed
    exact ⟨rfl, rfl, hmixed⟩
  | cons d rest ih =>
    intro entries st hdsnd hnodup hmixed
    have hrestnd := (List.nodup_cons.mp hdsnd).2
    have hdnotin := (List.nodup_cons.mp hdsnd).1
    simp only [processSeasons]
    split
    · rename_i hfind
      refine ih entries st hrestnd hnodup ?_
      intro se hse num hdir hparse
      have hsened : ¬ se.name = d := by
        intro hh
        exact (List.find?_eq_none.mp hfind se hse) (beq_iff_eq.mpr hh)
      constructor
      · intro hin
        exact (hmixed se hse num hdir hparse).1 (List.mem_cons_of_mem d hin)
      · intro hnin
        refine (hmixed se hse num hdir hparse).2 ?_
        intro hh
        rcases List.mem_cons.mp hh with hh1 | hh1
        · exact hsened hh1
        · exact hnin hh1
    · rename_i se hfind
      have hse : se ∈ entries := List.mem_of_find?_eq_some hfind
      have hname : se.name = d := by
        have h1 := List.find?_some hfind
        exact beq_iff_eq.mp h1
      split
      · rename_i hdir
        split
        · rename_i hparse
          refine ih entries st hrestnd hnodup ?_
          intro se' hse' num' hdir' hparse'
          have hsened : ¬ se'.name = d := by
            intro hh
            rw [hh, hparse] at hparse'
            exact Option.noConfusion hparse'
          constructor
          · intro hin
            exact (hmixed se' hse' num' hdir' hparse').1 (List.mem_cons_of_mem d hin)
          · intro hnin
            refine (hmixed se' hse' num' hdir' hparse').2 ?_
            intro hh
            rcases List.mem_cons.mp hh with hh1 | hh1
            · exact hsened hh1
            · exact hnin hh1
        · rename_i pnum hparse
          have hnamein : se.name ∈ d :: rest := by
            rw [hname]; exact List.mem_cons_self d rest
          have hparse_se : parse_season_from_dirname se.name = some pnum := by
            rw [hname]; exact hparse
          have hgood := (hmixed se hse pnum hdir hparse_se).1 hnamein
          have hrun := processFiles_run1 ex sn d pnum se.sub st hgood
          have hshape : entriesShape (replaceSEntry d
              { se with sub := (processFiles false ex sn d pnum
                (sortStrings (se.sub.map (fun e => e.name))) se.sub st).1 } entries)
              = entriesShape entries :=
            replaceSEntry_shape hfind rfl rfl rfl
          have hnodup' : ((replaceSEntry d
              { se with sub := (processFiles false ex sn d pnum
                (sortStrings (se.sub.map (fun e => e.name))) se.sub st).1 } entries).map
              (fun e => e.name)).Nodup := by
            rw [shape_names hshape]; exact hnodup
          have hmixed' : entriesMixed ex sn rest (replaceSEntry d
              { se with sub := (processFiles false ex sn d pnum
                (sortStrings (se.sub.map (fun e => e.name))) se.sub st).1 } entries) := by
            intro se' hse' num2 hdir' hparse'
            rcases mem_replaceSEntry hnodup hse' with hnew | ⟨hmem, hned⟩
            · constructor
              · intro hin
                have hn' : se'.name = d := by rw [hnew, hname]
                rw [hn'] at hin
                exact absurd hin hdnotin
              · intro _
                have hn' : se'.name = se.name := by rw [hnew]
                rw [hn', hparse_se] at hparse'
                have hnum : num2 = pnum := (Option.some.inj hparse').symm
                subst hnum
                have hsub' : se'.sub = (processFiles false ex sn d num2
                    (sortStrings (se.sub.map (fun e => e.name))) se.sub st).1 := by
                  rw [hnew]
                rw [hsub']
                exact ⟨hrun.2.1, hrun.2.2⟩
            · have h2 := hmixed se' hmem num2 hdir' hparse'
              constructor
              · intro hin
                exact h2.1 (List.mem_cons_of_mem d hin)
              · intro hnin
                refine h2.2 ?_
                intro hh
                rcases List.mem_cons.mp hh with hh1 | hh1
                · exact hned hh1
                · exact hnin hh1
          have hr := ih (replaceSEntry d
            { se with sub := (processFiles false ex sn d pnum
              (sortStrings (se.sub.map (fun e => e.name))) se.sub st).1 } entries)
            (processFiles false ex sn d pnum
              (sortStrings (se.sub.map (fun e => e.name))) se.sub st).2
            hrestnd hnodup' hmixed'
          exact ⟨hr.1.trans hrun.1, hr.2.1.trans hshape, hr.2.2⟩
      · rename_i hdir
        refine ih entries st hrestnd hnodup ?_
        intro se' hse' num' hdir' hparse'
        have hsened : ¬ se'.name = d := by
          intro hh
          have hse'se : se' = se := by
            rw [← hname] at hh
            have hnodup2 : namesNodupB (entries.map (fun e => e.name)) = true :=
              (namesNodupB_iff _).mpr hnodup
            exact seentry_unique hnodup2 hse' hse hh
          rw [hse'se] at hdir'
          exact hdir hdir'
        constructor
        · intro hin
          exact (hmixed se' hse' num' hdir' hparse').1 (List.mem_cons_of_mem d hin)
        · intro hnin
          refine (hmixed se' hse' num' hdir' hparse').2 ?_
          intro hh
          rcases List.mem_cons.mp hh with hh1 | hh1
          · exact hsened hh1
          · exact hnin hh1

theorem seasondir_of_mem {entries : List SEntry}
    (hnodup : namesNodupB (entries.map (fun e => e.name)) = true)
    {se : SEntry} (hse : se ∈ entries) (hdir : se.isDir = true)
    {num : Nat} (hparse : parse_season_from_dirname se.name = some num) :
    isSeasonDirOf entries se.name = true := by
  cases hf : entries.find? (fun e => e.name == se.name) with
  | none =>
    exact absurd (beq_iff_eq.mpr rfl) (List.find?_eq_none.mp hf se hse)
  | some e' =>
    have hmem := List.mem_of_find?_eq_some hf
    have hnameq : e'.name = se.name := by
      have h1 := List.find?_some hf
      exact beq_iff_eq.mp h1
    have hee : e' = se := seentry_unique hnodup hmem hse hnameq
    simp only [isSeasonDirOf]
    rw [hf, hee]
    dsimp only
    rw [hdir, hparse]
    rfl

theorem processSeries_run1 {re : REntry} (st : OrgSt) (h : SeriesGood re) :
    ∃ re' st', processSeries false re st = (none, re', st') ∧
      st'.missing = st.missing ∧ re'.name = re.name ∧ SeriesPost re' := by
  obtain ⟨⟨ex, ff⟩, hch, hnodup, hne, hseasons⟩ := h
  have hnodupN : (re.entries.map (fun e => e.name)).Nodup := (namesNodupB_iff _).mp hnodup
  have hsortnd : (sortStrings (re.entries.map (fun e => e.name))).Nodup :=
    sortStrings_nodup hnodupN
  have hdsnd : ((sortStrings (re.entries.map (fun e => e.name))).filter
      (isSeasonDirOf re.entries)).Nodup := List.Nodup.filter _ hsortnd
  have hmixed0 : entriesMixed ex re.name
      ((sortStrings (re.entries.map (fun e => e.name))).filter
        (isSeasonDirOf re.entries)) re.entries := by
    intro se hse num hdir hparse
    refine ⟨fun _ => hseasons se hse num hdir hparse, fun hnin => ?_⟩
    exfalso
    apply hnin
    refine List.mem_filter.mpr ⟨?_, seasondir_of_mem hnodup hse hdir hparse⟩
    exact mem_sortStrings.mpr (List.mem_map_of_mem (fun e => e.name) hse)
  have hr := processSeasons_run1 ex re.name
    ((sortStrings (re.entries.map (fun e => e.name))).filter
      (isSeasonDirOf re.entries)) re.entries st hdsnd hnodupN hmixed0
  simp only [processSeries]
  rw [hch]
  dsimp only
  rw [hne]
  simp only [Bool.false_eq_true, if_false]
  refine ⟨_, _, rfl, hr.1, rfl, ?_⟩
  refine ⟨(ex, ff), ?_, ?_, ?_, ?_⟩
  · show chooseExtractor (load_config (processSeasons false ex re.name _ re.entries st).1)
      = .ok (ex, ff)
    rw [shape_load_config hr.2.1]
    exact hch
  · show namesNodupB ((processSeasons false ex re.name _ re.entries st).1.map
      (fun e => e.name)) = true
    rw [shape_names hr.2.1]
    exact hnodup
  · show ((sortStrings ((processSeasons false ex re.name _ re.entries st).1.map
        (fun e => e.name))).filter
      (isSeasonDirOf (processSeasons false ex re.name _ re.entries st).1)).isEmpty = false
    rw [shape_names hr.2.1]
    rw [List.filter_congr (fun x _ => shape_isSeasonDirOf hr.2.1 x)]
    exact hne
  · intro se hse num hdir hparse
    exact (hr.2.2 se hse num hdir hparse).2 (List.not_mem_nil se.name)

theorem replaceREntry_names {n : String} {new old : REntry} {root : List REntry}
    (hfind : root.find? (fun e => e.name == n) = some old)
    (hn : new.name = old.name) :
    (replaceREntry n new root).map (fun e => e.name) = root.map (fun e => e.name) := by
  induction root with
  | nil => simp at hfind
  | cons e rest ih =>
    simp only [replaceREntry]
    by_cases he : (e.name == n) = true
    · rw [if_pos he]
      simp only [List.find?_cons, he] at hfind
      simp only [Option.some.injEq] at hfind
      simp only [List.map_cons]
      rw [hn, hfind]
    · have he' : (e.name == n) = false := boolFalse he
      rw [if_neg he]
      simp only [List.find?_cons, he'] at hfind
      have hih := ih hfind
      simp only [List.map_cons] at hih ⊢
      rw [hih]

theorem mem_replaceREntry {n : String} {new : REntry} {root : List REntry} {e' : REntry}
    (hnodup : (root.map (fun e => e.name)).Nodup)
    (h : e' ∈ replaceREntry n new root) :
    e' = new ∨ (e' ∈ root ∧ ¬ e'.name = n) := by
  induction root with
  | nil => simp [replaceREntry] at h
  | cons e rest ih =>
    simp only [List.map_cons, List.nodup_cons] at hnodup
    obtain ⟨hnm, hnd⟩ := hnodup
    simp only [replaceREntry] at h
    split at h
    · rename_i hbeq
      have hen : e.name = n := beq_iff_eq.mp hbeq
      rcases List.mem_cons.mp h with h1 | h1
      · exact Or.inl h1
      · refine Or.inr ⟨List.mem_cons_of_mem e h1, fun hmm => ?_⟩
        have hmem2 : e'.name ∈ List.map (fun x => x.name) rest :=
          List.mem_map_of_mem (fun x => x.name) h1
        rw [hmm, ← hen] at hmem2
        exact hnm hmem2
    · rename_i hbeq
      have hen : ¬ e.name = n := by
        intro hh; exact hbeq (beq_iff_eq.mpr hh)
      rcases List.mem_cons.mp h with h1 | h1
      · exact Or.inr ⟨h1 ▸ List.mem_cons_self e rest, h1 ▸ hen⟩
      · rcases ih hnd h1 with h2 | h2
        · exact Or.inl h2
        · exact Or.inr ⟨List.mem_cons_of_mem e h2.1, h2.2⟩

theorem organizeGo_run1 :
    ∀ (ns : List String) (root : List REntry) (st : OrgSt),
      ns.Nodup →
      (root.map (fun e => e.name)).Nodup →
      rootMixed ns root →
      ∃ root' st', organizeGo false ns root st = (none, root', st') ∧
        st'.missing = st.missing ∧
        root'.map (fun e => e.name) = root.map (fun e => e.name) ∧
        ∀ re ∈ root', re.isDir = true → SeriesPost re := by
  intro ns
  induction ns with
  | nil =>
    intro root st _ _ hmixed
    refine ⟨root, st, rfl, rfl, rfl, fun re hre hdir => ?_⟩
    exact (hmixed re hre hdir).2 (List.not_mem_nil re.name)
  | cons n rest ih =>
    intro root st hnsnd hnodup hmixed
    have hrestnd := (List.nodup_cons.mp hnsnd).2
    have hnnotin := (List.nodup_cons.mp hnsnd).1
    simp only [organizeGo]
    split
    · rename_i hfind
      refine ih root st hrestnd hnodup ?_
      intro r hr hdirr
      have hrned : ¬ r.name = n := by
        intro hh
        exact (List.find?_eq_none.mp hfind r hr) (beq_iff_eq.mpr hh)
      have h2 := hmixed r hr hdirr
      constructor
      · intro hin
        exact h2.1 (List.mem_cons_of_mem n hin)
      · intro hnin
        refine h2.2 ?_
        intro hh
        rcases List.mem_cons.mp hh with hh1 | hh1
        · exact hrned hh1
        · exact hnin hh1
    · rename_i re hfind
      have hre : re ∈ root := List.mem_of_find?_eq_some hfind
      have hname : re.name = n := by
        have h1 := List.find?_some hfind
        exact beq_iff_eq.mp h1
      by_cases hdir : re.isDir = true
      · rw [if_pos hdir]
        have hgood : SeriesGood re := (hmixed re hre hdir).1 (by
          rw [hname]; exact List.mem_cons_self n rest)
        obtain ⟨re', st', hps, hm', hn', hpost'⟩ := processSeries_run1 st hgood
        rw [hps]
        dsimp only
        have hnames1 : (replaceREntry n re' root).map (fun e => e.name)
            = root.map (fun e => e.name) := replaceREntry_names hfind hn'
        have hnodup1 : ((replaceREntry n re' root).map (fun e => e.name)).Nodup := by
          rw [hnames1]; exact hnodup
        have hmixed1 : rootMixed rest (replaceREntry n re' root) := by
          intro r hr hdirr
          rcases mem_replaceREntry hnodup hr with hnew | ⟨hmem, hned⟩
          · constructor
            · intro hin
              exfalso
              have hrn : r.name = n := by rw [hnew, hn', hname]
              rw [hrn] at hin
              exact hnnotin hin
            · intro _
              rw [hnew]
              exact hpost'
          · have h2 := hmixed r hmem hdirr
            constructor
            · intro hin
              exact h2.1 (List.mem_cons_of_mem n hin)
            · intro hnin
              refine h2.2 ?_
              intro hh
              rcases List.mem_cons.mp hh with hh1 | hh1
              · exact hned hh1
              · exact hnin hh1
        obtain ⟨root2, st2, hgo, hm2, hnames2, hpost2⟩ :=
          ih (replaceREntry n re' root) st' hrestnd hnodup1 hmixed1
        exact ⟨root2, st2, hgo, hm2.trans hm', hnames2.trans hnames1, hpost2⟩
      · rw [if_neg hdir]
        refine ih root st hrestnd hnodup ?_
        intro r hr hdirr
        have hrned : ¬ r.name = n := by
          intro hh
          have hrre : r = re := by
            rw [← hname] at hh
            exact name_unique (fun e => e.name) hnodup hr hre hh
          rw [hrre] at hdirr
          exact hdir hdirr
        have h2 := hmixed r hr hdirr
        constructor
        · intro hin
          exact h2.1 (List.mem_cons_of_mem n hin)
        · intro hnin
          refine h2.2 ?_
          intro hh
          rcases List.mem_cons.mp hh with hh1 | hh1
          · exact hrned hh1
          · exact hnin hh1

theorem organize_run1 {root : List REntry} (h : RootGood root) :
    ∃ n t root1, organize false root = (.ok (n, t), root1) ∧ RootPost root1 := by
  have hnodup : (root.map (fun e => e.name)).Nodup := (namesNodupB_iff _).mp h.1
  have hnsnd : (sortStrings (root.map (fun e => e.name))).Nodup := sortStrings_nodup hnodup
  have hmixed : rootMixed (sortStrings (root.map (fun e => e.name))) root := by
    intro re hre hdir
    refine ⟨fun _ => h.2 re hre hdir, fun hnin => ?_⟩
    exfalso
    apply hnin
    exact mem_sortStrings.mpr (List.mem_map_of_mem (fun e => e.name) hre)
  obtain ⟨root1, st1, hgo, hm1, hnames1, hpost1⟩ :=
    organizeGo_run1 (sortStrings (root.map (fun e => e.name))) root ⟨0, 0, []⟩
      hnsnd hnodup hmixed
  refine ⟨st1.renamed, st1.total, root1, ?_, ?_, hpost1⟩
  · simp only [organize]
    rw [hgo]
    dsimp only
    have hmE : st1.missing.isEmpty = true := by rw [hm1]; rfl
    rw [hmE]
    rfl
  · show namesNodupB (root1.map (fun e => e.name)) = true
    rw [hnames1]
    exact h.1

theorem c6GoodTree_good : RootGood c6GoodTree := by
  refine ⟨by decide, ?_⟩
  intro re hre _
  have hre1 : re = (⟨"Show", true,
      [⟨"Season 01", true, none, [⟨"x 05.mkv", false⟩]⟩]⟩ : REntry) := by
    simpa [c6GoodTree] using hre
  subst hre1
  refine ⟨(parse_episode_from_filename, false), rfl, by decide, by decide, ?_⟩
  intro se hse num hdir hparse
  have hse1 : se = (⟨"Season 01", true, none, [⟨"x 05.mkv", false⟩]⟩ : SEntry) := by
    simpa using hse
  subst hse1
  have hp : parse_season_from_dirname "Season 01" = some 1 := by decide
  have hnum : (1 : Nat) = num := Option.some.inj (hp.symm.trans hparse)
  rw [← hnum]
  decide

/-- C6 amended: `organize` is idempotent on every *good* tree — series names
duplicate-free, and each series directory with a successfully built extractor,
at least one season directory, duplicate-free entry names, and every season's
target files stable under re-extraction (the canonical destination name
re-extracts to the same episode with the same extension and destinations do
not collide).  On such a tree the first live run succeeds and a second live
run renames nothing and leaves the tree unchanged. -/
theorem c6_amended (root : List REntry) (h : RootGood root) :
    ∃ n t t2 root1, organize false root = (.ok (n, t), root1) ∧
      organize false root1 = (.ok (0, t2), root1) := by
  obtain ⟨n, t, root1, h1, hpost⟩ := organize_run1 h
  obtain ⟨t2, h2⟩ := organize_fixpoint hpost
  exact ⟨n, t, t2, root1, h1, h2⟩

/-- Witness for the amended C6 theorem on a concrete good tree. -/
theorem c6_amended_witness :
    RootGood c6GoodTree ∧
      ∃ n t t2 root1, organize false c6GoodTree = (.ok (n, t), root1) ∧
        organize false root1 = (.ok (0, t2), root1) :=
  ⟨c6GoodTree_good, c6_amended c6GoodTree c6GoodTree_good⟩

end SubtitleRenamer
